import Mathlib

/-!
Verification of the trust- and naming-boundary core of a mock Docker registry:
digest validation (`models/repository/__init__.py`, class `Digest`), image
reference parsing and formatting (`DockerImageReferenceParts`,
`DockerImageReference`), scope authorization and token validation
(`auth/validate.py`), and token issuance expiration resolution
(`auth/generate.py`).

Python values are embedded as the inductive `PyVal`; Python exceptions as
`PyErr` (fallible code returns `Except PyErr _`, code that catches an
exception and returns `None` returns `Option _`).
-/

/-- Python exceptions raised by the modelled code, plus the exceptions of the
external `jose.jwt` signing primitive (`JWTError` for signature verification
failure, `JWTClaimsError` for issuer/audience mismatch, `ExpiredSignatureError`
for expiration). -/
inductive PyErr where
  | valueError (msg : String)
  | keyError (key : String)
  | typeError (msg : String)
  | attributeError (msg : String)
  | joseJWTError
  | joseJWTClaimsError
  | joseExpiredSignature
deriving Repr, DecidableEq

/-- Dynamic Python values: the JSON-like fragment used by the token claims. -/
inductive PyVal where
  | pyNone
  | pyBool (b : Bool)
  | pyInt (n : Int)
  | pyStr (s : String)
  | pyList (xs : List PyVal)
  | pyDict (kvs : List (String × PyVal))
deriving Repr

/-- Python `dict` lookup on a string-keyed dict (association list, first hit). -/
def lookupDict (kvs : List (String × PyVal)) (k : String) : Option PyVal :=
  match kvs.find? (fun kv => kv.1 == k) with
  | some kv => some kv.2
  | none => none

mutual

/-- Python `==` on the embedded values.  Dict equality in Python is
key-set based; the modelled code only ever compares strings (and the
claims only exercise string and list comparisons), so dicts are compared
by mutual length and key lookup, which agrees with Python on duplicate-free
dicts. -/
def pyBeq : PyVal → PyVal → Bool
  | .pyNone, .pyNone => true
  | .pyBool a, .pyBool b => a == b
  | .pyInt a, .pyInt b => a == b
  | .pyStr a, .pyStr b => a == b
  | .pyList xs, .pyList ys => pyBeqL xs ys
  | .pyDict xs, .pyDict ys => pyBeqD xs ys
  | _, _ => false

def pyBeqL : List PyVal → List PyVal → Bool
  | [], [] => true
  | x :: xs, y :: ys => pyBeq x y && pyBeqL xs ys
  | _, _ => false

def pyBeqD : List (String × PyVal) → List (String × PyVal) → Bool
  | [], [] => true
  | (k, v) :: xs, (l, w) :: ys => k == l && pyBeq v w && pyBeqD xs ys
  | _, _ => false

end

/-- Python `x[k]` with a string key: dict lookup (`KeyError` when absent),
`TypeError` on non-dict values. -/
def pySubscript (v : PyVal) (k : String) : Except PyErr PyVal :=
  match v with
  | .pyDict kvs =>
      match lookupDict kvs k with
      | some x => .ok x
      | none => .error (.keyError k)
  | _ => .error (.typeError "object is not subscriptable with a string key")

/-- Substring test, Python `needle in haystack` on strings. -/
def strContainsSub (haystack needle : String) : Bool :=
  haystack.data.tails.any (fun t => needle.data.isPrefixOf t)

/-- Python `x in c`: list membership by `==`, substring test on strings,
key membership on dicts, `TypeError` otherwise. -/
def py_in (x : PyVal) (c : PyVal) : Except PyErr Bool :=
  match c with
  | .pyList xs => .ok (xs.any (fun e => pyBeq x e))
  | .pyStr s =>
      match x with
      | .pyStr t => .ok (strContainsSub s t)
      | _ => .error (.typeError "in onto str requires string as left operand")
  | .pyDict kvs =>
      match x with
      | .pyStr t => .ok (kvs.any (fun kv => kv.1 == t))
      | _ => .ok false
  | _ => .error (.typeError "argument of type is not iterable")

/-! ### `mock_docker_registry/models/auth.py` -/

/-- Values of the `ResourceType` string enum, in declaration order;
`t in list(ResourceType)` compares against these strings. -/
def resourceTypeValues : List String := ["registry", "repository"]

/-- Values of the `ResourceAction` string enum, in declaration order. -/
def resourceActionValues : List String := ["push", "pull", "list"]

/-! ### `mock_docker_registry/auth/validate.py` -/

/-- One requested scope, the `ThrupleStr = Tuple[str, str, str]` of the source:
`(type, name, action)`. -/
abbrev ThrupleStr := String × String × String

/-- Decoded-and-verified token input to `jose.jwt.decode`: the claims payload
together with the outcomes of the external verification steps.  The `jose`
library is an external collaborator; it is modelled by its documented
behaviour: a bad signature raises `JWTError`, an expired token (valid
signature) raises `ExpiredSignatureError`, an issuer or audience mismatch
raises `JWTClaimsError`, and otherwise the claims dict is returned. -/
structure JwtToken where
  claims : List (String × PyVal)
  sigValid : Bool
  expired : Bool
  issOk : Bool
  audOk : Bool

/-- Model of the external `jose.jwt.decode(encoded_token, SECRET_KEY,
algorithms=[ALGORITHM], audience=AUDIENCE, issuer=ISSUER)` call: signature
first, then expiration, then issuer/audience claims. -/
def jwt_decode (t : JwtToken) : Except PyErr (List (String × PyVal)) :=
  if !t.sigValid then .error .joseJWTError
  else if t.expired then .error .joseExpiredSignature
  else if !t.issOk || !t.audOk then .error .joseJWTClaimsError
  else .ok t.claims

/-- `get_token_data`: calls `jwt.decode` and catches only
`ExpiredSignatureError` (returning `None`); every other exception
propagates to the caller. -/
def get_token_data (t : JwtToken) : Except PyErr (Option (List (String × PyVal))) :=
  match jwt_decode t with
  | .ok d => .ok (some d)
  | .error .joseExpiredSignature => .ok none
  | .error e => .error e

/-- Body of the `for access_scope in access` loop of the first
`scope_is_allowed` overload: linear scan with nested equality tests,
returning `True` on the first full match, `False` after the loop.
Malformed entries raise (`KeyError`/`TypeError`) exactly where the
subscript or `in` would. -/
def scope_is_allowed (scope : ThrupleStr) (access : List PyVal) : Except PyErr Bool :=
  match access with
  | [] => .ok false
  | sc :: rest => do
      let tv ← pySubscript sc "type"
      if pyBeq tv (.pyStr scope.1) then
        let nv ← pySubscript sc "name"
        if pyBeq nv (.pyStr scope.2.1) then
          let av ← pySubscript sc "actions"
          let b ← py_in (.pyStr scope.2.2) av
          if b then .ok true else scope_is_allowed scope rest
        else scope_is_allowed scope rest
      else scope_is_allowed scope rest

/-- Second `scope_is_allowed` overload: a requested sequence is allowed iff
every element is, short-circuiting on the first failure. -/
def scope_is_allowed_list (scopes : List ThrupleStr) (access : List PyVal) : Except PyErr Bool :=
  match scopes with
  | [] => .ok true
  | s :: rest => do
      let b ← scope_is_allowed s access
      if b then scope_is_allowed_list rest access else .ok false

/-- Inner check of the `validate_token_data(data: dict)` assert sequence for a
single element of `access`: a dict whose `type` is a string in
`list(ResourceType)`, whose `name` is a string, and whose `actions` is a list
of strings in `list(ResourceAction)`.  Any failed assert or missing key is
caught by the surrounding `except (AssertionError, KeyError)`. -/
def scope_shape_ok (scope : PyVal) : Bool :=
  match scope with
  | .pyDict kvs =>
      (match lookupDict kvs "type" with
       | some (.pyStr t) => resourceTypeValues.contains t
       | _ => false)
      && (match lookupDict kvs "name" with
          | some (.pyStr _) => true
          | _ => false)
      && (match lookupDict kvs "actions" with
          | some (.pyList acts) =>
              acts.all (fun a =>
                match a with
                | .pyStr s => resourceActionValues.contains s
                | _ => false)
          | _ => false)
  | _ => false

/-- `validate_token_data(data: dict)`: structural re-validation of the decoded
`access` claim; returns the whole claims dict on success, `None` when any
assert fails or a key is missing. -/
def validate_token_data_dict (data : List (String × PyVal)) : Option PyVal :=
  match lookupDict data "access" with
  | some (.pyList access) =>
      if access.all scope_shape_ok then some (.pyDict data) else none
  | some _ => none
  | none => none

/-- The `Union[str, dict]` first argument of the scoped
`validate_token_data` overloads, dispatched by `multimethod`. -/
inductive TokenOrDict where
  | tok (t : JwtToken)
  | dct (d : List (String × PyVal))

/-- `validate_token_data(data: str)`: decode (propagating uncaught `jose`
exceptions), then structural validation. -/
def validate_token_data_str (t : JwtToken) : Except PyErr (Option PyVal) := do
  match ← get_token_data t with
  | none => .ok none
  | some d => .ok (validate_token_data_dict d)

/-- Dispatch of single-argument `validate_token_data` on `Union[str, dict]`. -/
def validate_token_data_any : TokenOrDict → Except PyErr (Option PyVal)
  | .tok t => validate_token_data_str t
  | .dct d => .ok (validate_token_data_dict d)

/-- The `ThrupleStrU = Union[ThrupleStr, List[ThrupleStr]]` scope argument. -/
inductive ScopeArg where
  | single (s : ThrupleStr)
  | multi (l : List ThrupleStr)

/-- Dispatch of `scope_is_allowed` on `ThrupleStrU`. -/
def scope_dispatch : ScopeArg → List PyVal → Except PyErr Bool
  | .single s, access => scope_is_allowed s access
  | .multi l, access => scope_is_allowed_list l access

/-- `validate_token_data(data, scope: ThrupleStrU)`: validate the token, then
`return data if scope_is_allowed(scope, data["access"]) else None`.  The
second argument of `scope_is_allowed` is typed `List[dict]`; after successful
structural validation `data["access"]` is always a list, so a non-list here
is a dispatch failure. -/
def validate_token_data_scoped (data : TokenOrDict) (scope : ScopeArg) :
    Except PyErr (Option PyVal) := do
  match ← validate_token_data_any data with
  | none => .ok none
  | some d => do
      let acc ← pySubscript d "access"
      match acc with
      | .pyList xs => do
          let b ← scope_dispatch scope xs
          .ok (if b then some d else none)
      | _ => .error (.typeError "no matching scope_is_allowed dispatch")

/-- Python `s.split(sep)` for a one-character separator: split at every
occurrence, keeping empty fields (`"".split(sep)` is `[""]`). -/
def splitChar (sep : Char) : List Char → List (List Char)
  | [] => [[]]
  | c :: r =>
      if c == sep then [] :: splitChar sep r
      else
        match splitChar sep r with
        | t :: ts => (c :: t) :: ts
        | [] => [[c]]

/-- Python `sep.join(parts)` for a one-character separator. -/
def joinChar (sep : Char) : List (List Char) → List Char
  | [] => []
  | [p] => p
  | p :: ps => p ++ sep :: joinChar sep ps

/-- Loop of `validate_token_data(data, scope: str)` over
`scope.split(" ")`: split each token on `:`; fewer than 3 fields raises
`ValueError` immediately; otherwise `(parts[0], ":".join(parts[1:-1]),
parts[-1])` is accumulated. -/
def parse_scopes : List (List Char) → Except PyErr (List ThrupleStr)
  | [] => .ok []
  | tok :: rest =>
      match splitChar ':' tok with
      | p0 :: p1 :: p2 :: ps => do
          let others ← parse_scopes rest
          .ok ((String.mk p0, String.mk (joinChar ':' ((p1 :: p2 :: ps).dropLast)),
                String.mk (List.getLastD ps p2)) :: others)
      | _ => .error (.valueError ("Scope string is invalid: " ++ String.mk tok))

/-- `validate_token_data(data, scope: str)`: parse the scope string (raising
on malformed tokens before any token validation happens), then delegate to
the `ThrupleStrU` overload with the accumulated list. -/
def validate_token_data_strscope (data : TokenOrDict) (scope : String) :
    Except PyErr (Option PyVal) := do
  let scopes ← parse_scopes (splitChar ' ' scope.data)
  validate_token_data_scoped data (.multi scopes)

/-! ### `mock_docker_registry/auth/generate.py` -/

/-- The polymorphic `expiration` argument of `create_token`:
`Union[None, datetime, timedelta, str, int]`.  Instants and durations are
embedded as integer Unix seconds. -/
inductive PyExpiration where
  | noneE
  | dt (t : Int)
  | delta (seconds : Int)
  | strE (s : String)
  | intE (n : Int)

/-- Expiration resolution of `create_token`: `None` means now plus the
configured default validity window (`DEFAULT_TOKEN_VALIDITY_PERIOD`, consumed
from external configuration and passed here as an argument); an `int` below
`60 * 60 * 24 * 365` seconds is relative to now (`now_plus`), otherwise it is
`datetime.fromtimestamp(expiration)`, an absolute instant; a `timedelta` is
always relative; a `str` goes through `pydantic.datetime_parse.parse_datetime`
(modelled as the function argument `parse_dt`), an absolute instant;
a `datetime` is used as given. -/
def resolve_expiration (now : Int) (defaultValidity : Int) (parse_dt : String → Int) :
    PyExpiration → Int
  | .noneE => now + defaultValidity
  | .intE n => if n < 60 * 60 * 24 * 365 then now + n else n
  | .delta s => now + s
  | .strE s => parse_dt s
  | .dt t => t

/-! ### `mock_docker_registry/models/repository/__init__.py`, class `Digest` -/

/-- `Digest.valid_algorithms`.  `available_algorithms` is this set united with
the environment-dependent `hashlib.algorithms_available`; for inputs that
begin with `"sha256:"` only the `"sha256:"` element of `valid_prefixes` can
match (a prefix of the form `algo + ":"` must place its colon at the first
colon of the input, forcing `algo = "sha256"`, and no hashlib algorithm name
contains a colon), so the model keeps just the guaranteed member. -/
def valid_algorithms : List String := ["sha256"]

/-- `Digest.hash_lengths`: keyed by the bare algorithm name. -/
def hash_lengths : List (String × Nat) := [("sha256", 64)]

/-- `Digest.valid_prefixes`: each algorithm name with a trailing colon. -/
def valid_prefixes : List String := valid_algorithms.map (fun a => a ++ ":")

/-- Python `value.startswith(p)` (character-level). -/
def strStartsWith (value p : String) : Bool := p.data.isPrefixOf value.data

/-- `Digest._pop_prefix`: first matching element of `valid_prefixes` (with its
colon) and the remainder after `removeprefix`. -/
def pop_pfx (value : String) : Option String × String :=
  match valid_prefixes.find? (fun p => strStartsWith value p) with
  | some p => (some p, String.mk (value.data.drop p.data.length))
  | none => (none, value)

/-- The 22 characters of Python `string.hexdigits`. -/
def pyHexdigits : List Char := "0123456789abcdefABCDEF".data

/-- `Digest.is_prefixed`: `value.startswith(cls.valid_prefixes)` or
`ValueError`. -/
def digest_is_prefixed (value : String) : Except PyErr String :=
  if valid_prefixes.any (fun p => strStartsWith value p) then .ok value
  else .error (.valueError "digest must begin with one of the valid algorithms")

/-- `Digest.is_hex`: the remainder after the popped prefix must consist of
`string.hexdigits` characters. -/
def digest_is_hex (value : String) : Except PyErr String :=
  if (pop_pfx value).2.data.all (fun c => pyHexdigits.contains c) then .ok value
  else .error (.valueError "digest must be hexadecimal")

/-- `Digest.is_correct_length`: looks up `cls.hash_lengths[_pfx]` where
`_pfx` is the popped prefix including its trailing colon (or `None`); an
absent key raises `KeyError`, and a remainder of the wrong length raises
`ValueError`. -/
def digest_is_correct_length (value : String) : Except PyErr String :=
  match pop_pfx value with
  | (some p, hx) =>
      match (hash_lengths.find? (fun kv => kv.1 == p)) with
      | some kv => if hx.length ≠ kv.2 then .error (.valueError "digest must be of correct length") else .ok value
      | none => .error (.keyError p)
  | (none, _) => .error (.keyError "None")

/-- The `__validators__` pipeline `[is_prefixed, is_hex, is_correct_length]`
of `Digest`, applied in order by `ValidatedValue.validate` via `reduce`.
In CPython the pipeline in fact fails even earlier — the list holds raw
`classmethod` objects, which are not callable, so `_do_validation` raises
`TypeError` at the first step — but the algorithmic content of the three
validators is modelled faithfully here. -/
def digest_validate (value : String) : Except PyErr String := do
  let v1 ← digest_is_prefixed value
  let v2 ← digest_is_hex v1
  digest_is_correct_length v2

/-- `Digest.from_hex`: validates the formatted string `algorithm + ":" +
hex_digits`, the same path `Blob.digest` takes with a freshly computed
`hexdigest()` (always 64 lowercase hex characters for sha256). -/
def digest_from_hex (hex_digits : String) (algorithm : String := "sha256") :
    Except PyErr String :=
  digest_validate (algorithm ++ ":" ++ hex_digits)

/-! ### A list-of-successes matcher for the verbose patterns of
`DockerImageReferenceParts`

Python `re` matching is depth-first backtracking: alternation prefers its left
branch, greedy repetition prefers longer matches, and `re.match` anchors at
the start only, returning the first success without requiring the whole input
to be consumed.  Each combinator below returns the list of possible remaining
inputs in exactly that preference order; `re.match` is the head of the overall
list.  Repetition stops iterating on an empty-width body match, as the Python
engine does (no body of the patterns below can match empty anyway). -/

abbrev Matcher := List Char → List (List Char)

/-- Single character of a class. -/
def mOne (p : Char → Bool) : Matcher := fun s =>
  match s with
  | [] => []
  | c :: r => if p c then [r] else []

/-- Concatenation: every continuation of the first in order. -/
def mSeq (a b : Matcher) : Matcher := fun s => (a s).flatMap b

/-- Alternation, left-preferring. -/
def mAlt (a b : Matcher) : Matcher := fun s => a s ++ b s

/-- Greedy `?`. -/
def mOpt (a : Matcher) : Matcher := fun s => a s ++ [s]

/-- Greedy `*`, fuelled; the fuel is the input length, which suffices because
every iteration that continues consumes at least one character. -/
def mStarAux (a : Matcher) : Nat → List Char → List (List Char)
  | 0, s => [s]
  | fuel + 1, s =>
      ((a s).flatMap (fun r =>
        if r.length < s.length then mStarAux a fuel r else [r])) ++ [s]

/-- Greedy `*`. -/
def mStar (a : Matcher) : Matcher := fun s => mStarAux a s.length s

/-- Greedy `+`. -/
def mPlus (a : Matcher) : Matcher := mSeq a (mStar a)

/-- Greedy bounded repetition, at most `n` times (used for `{0,127}`). -/
def mRepMax (a : Matcher) : Nat → Matcher
  | 0 => fun s => [s]
  | n + 1 => fun s =>
      ((a s).flatMap (fun r =>
        if r.length < s.length then mRepMax a n r else [r])) ++ [s]

/-- Exact repetition, `n` times (used for the mandatory part of `{32,}`). -/
def mCount (a : Matcher) : Nat → Matcher
  | 0 => fun s => [s]
  | n + 1 => mSeq a (fun s => mCount a n s)

/-- Python `$`: end of input, or just before a final newline. -/
def atEndM (s : List Char) : Bool := s == [] || s == ['\n']

/-! Character classes of the raw patterns (ASCII; the source patterns are
compiled without `re.ASCII`, so Python `\w` also covers non-ASCII word
characters — the grammar below and all claim inputs are ASCII, where the two
agree, as the source comment itself glosses `\w` as ASCII alphanumerics plus
underscore). -/

/-- Class `[a-zA-Z0-9]`. -/
def isAlnumU (c : Char) : Bool :=
  (('a' ≤ c && c ≤ 'z') || ('A' ≤ c && c ≤ 'Z') || ('0' ≤ c && c ≤ '9'))

/-- Class `[a-zA-Z0-9-]`. -/
def isHostChar (c : Char) : Bool := isAlnumU c || c == '-'

/-- Class `[a-z0-9]`. -/
def isLowerAl (c : Char) : Bool :=
  ('a' ≤ c && c ≤ 'z') || ('0' ≤ c && c ≤ '9')

/-- Class `[\w]` (ASCII part). -/
def isWordA (c : Char) : Bool := isAlnumU c || c == '_'

/-- Class `[\w.-]` (ASCII part). -/
def isTagChar (c : Char) : Bool := isWordA c || c == '.' || c == '-'

/-- Class `[A-Fa-f0-9]`. -/
def isHexU (c : Char) : Bool :=
  ('0' ≤ c && c ≤ '9') || ('a' ≤ c && c ≤ 'f') || ('A' ≤ c && c ≤ 'F')

/-- Class `[a-fA-F0-9:]`. -/
def isIpv6Char (c : Char) : Bool := isHexU c || c == ':'

/-- Class `[A-Za-z]`. -/
def isLetterU (c : Char) : Bool :=
  ('a' ≤ c && c ≤ 'z') || ('A' ≤ c && c ≤ 'Z')

/-- Class `[0-9]`. -/
def isDigitU (c : Char) : Bool := '0' ≤ c && c ≤ '9'

/-- Class `[-_+.]` of the digest separators. -/
def isDigSep (c : Char) : Bool := c == '-' || c == '_' || c == '+' || c == '.'

/-- One host-name component:
`[a-zA-Z0-9][a-zA-Z0-9-]*[a-zA-Z0-9]|[a-zA-Z0-9]`. -/
def hostCompM : Matcher :=
  mAlt (mSeq (mOne isAlnumU) (mSeq (mStar (mOne isHostChar)) (mOne isAlnumU)))
       (mOne isAlnumU)

/-- `_host_name_pattern_raw`: a first component, then any number of
dot-separated further components. -/
def hostNameM : Matcher :=
  mSeq hostCompM (mStar (mSeq (mOne (fun c => c == '.')) hostCompM))

/-- `_ipv6_pattern_raw`: literal `[`, one or more of `[a-fA-F0-9:]`,
literal `]`. -/
def ipv6M : Matcher :=
  mSeq (mOne (fun c => c == '[')) (mSeq (mPlus (mOne isIpv6Char)) (mOne (fun c => c == ']')))

/-- The separator alternation `(?:[._]|__|[-]*)` inside a repo-name
component, in source order. -/
def nameSepM : Matcher := fun s =>
  (mOne (fun c => c == '.' || c == '_')) s
  ++ (mSeq (mOne (fun c => c == '_')) (mOne (fun c => c == '_'))) s
  ++ (mStar (mOne (fun c => c == '-'))) s

/-- One repo-name component: `[a-z0-9]+(?:(?:[._]|__|[-]*)[a-z0-9]+)*`. -/
def nameCompM : Matcher :=
  mSeq (mPlus (mOne isLowerAl)) (mStar (mSeq nameSepM (mPlus (mOne isLowerAl))))

/-- `_repo_name_pattern_raw` (contents of the `name` group): components
joined by `/`. -/
def nameM : Matcher :=
  mSeq nameCompM (mStar (mSeq (mOne (fun c => c == '/')) nameCompM))

/-- Contents of the `tag` group: `[\w][\w.-]{0,127}`. -/
def tagM : Matcher := mSeq (mOne isWordA) (mRepMax (mOne isTagChar) 127)

/-- One algorithm run of the digest pattern: `[A-Za-z][A-Za-z0-9]*`. -/
def algRunM : Matcher := mSeq (mOne isLetterU) (mStar (mOne isAlnumU))

/-- Contents of the `digest` group: algorithm runs joined by `[-_+.]`,
a literal `:`, then at least 32 hex digits. -/
def digestM : Matcher :=
  mSeq algRunM
    (mSeq (mStar (mSeq (mOne isDigSep) algRunM))
      (mSeq (mOne (fun c => c == ':'))
        (mSeq (mCount (mOne isHexU) 32) (mStar (mOne isHexU)))))

/-- The characters a successful sub-match consumed: the input minus the rest. -/
def consumedBy (s r : List Char) : List Char := s.take (s.length - r.length)

/-- The `host` alternation of `_registry_pattern_raw`: DNS-style name or
IPv6 literal, in source order. -/
def hostM : Matcher := mAlt hostNameM ipv6M

/-- The optional-port part of `_registry_pattern_raw` after the host: a
literal `:` and the `port` capture of one or more digits, tried before the
empty branch of the optional group.  `s` is the whole registry input (for
the host capture), `s1` the rest after the host. -/
def portPart (s s1 : List Char) : List ((List Char × Option (List Char)) × List Char) :=
  (match s1 with
   | ':' :: s2 =>
       ((mPlus (mOne isDigitU)) s2).map (fun s3 => ((consumedBy s s1, some (consumedBy s2 s3)), s3))
   | _ => []) ++ [((consumedBy s s1, none), s1)]

/-- `_registry_pattern_raw`: the `host` capture, then an optional `:` and
`port` capture.  Results pair the captured `(host, port)` with the rest. -/
def registryM (s : List Char) : List ((List Char × Option (List Char)) × List Char) :=
  (hostM s).flatMap fun s1 => portPart s s1

/-- `_repo_pattern_raw`: `(?:registry[/])?name`, the optional registry
group tried first (greedy).  Results carry `(host?, port?, name)`. -/
def repoM (s : List Char) : List ((Option (List Char) × Option (List Char) × List Char) × List Char) :=
  ((registryM s).flatMap fun x =>
     match x.2 with
     | '/' :: s2 => (nameM s2).map (fun s3 => ((some x.1.1, x.1.2, consumedBy s2 s3), s3))
     | _ => [])
  ++ (nameM s).map (fun s2 => ((none, none, consumedBy s s2), s2))

/-- The five named groups of `image_pattern.groupdict()`. -/
structure GroupDict where
  host : Option (List Char)
  port : Option (List Char)
  name : Option (List Char)
  tag : Option (List Char)
  digest : Option (List Char)
deriving Repr

/-- The optional `(?:[:]tag)?` group of `_image_pattern_raw`: a literal `:`
and the `tag` capture, tried before the empty branch. -/
def tagPart (s1 : List Char) : List (Option (List Char) × List Char) :=
  (match s1 with
   | ':' :: s2 => (tagM s2).map (fun s3 => (some (consumedBy s2 s3), s3))
   | _ => []) ++ [(none, s1)]

/-- The optional conditional group of `_image_pattern_raw`: if `tag`
participated it demands `$`, otherwise it admits `@` and the `digest`
capture; the empty branch of the optional group comes last. -/
def condPart (tg : Option (List Char)) (s2 : List Char) :
    List (Option (List Char) × List Char) :=
  (match tg with
   | some _ => if atEndM s2 then [(none, s2)] else []
   | none =>
       match s2 with
       | '@' :: s3 => (digestM s3).map (fun s4 => (some (consumedBy s3 s4), s4))
       | _ => []) ++ [(none, s2)]

/-- `_image_pattern_raw`: repo, an optional `:tag`, then the optional
conditional group — if `tag` matched it demands `$`, otherwise it admits
`@digest`.  Being optional and the pattern being applied with `re.match`
(not `fullmatch`), a failing conditional simply ends the match early. -/
def imageM (s : List Char) : List (GroupDict × List Char) :=
  (repoM s).flatMap fun x =>
    (tagPart x.2).flatMap fun tb =>
      (condPart tb.1 tb.2).map fun cb =>
        ({ host := x.1.1, port := x.1.2.1, name := some x.1.2.2,
           tag := tb.1, digest := cb.1 }, cb.2)

/-- `image_pattern.match(image)`: the first success, if any. -/
def imageMatch (s : List Char) : Option GroupDict :=
  match imageM s with
  | [] => none
  | x :: _ => some x.1

/-! ### `DockerImageReference` -/

/-- The dynamically-typed `port` attribute: the class default and explicit
construction store an `int`, the parsing path stores the captured digit
string unchanged. -/
inductive PortV where
  | intP (n : Int)
  | strP (s : String)
deriving Repr, DecidableEq

/-- Attribute state of a `DockerImageReference`. -/
structure ImageRef where
  host : Option String
  port : PortV
  name : String
  tag : Option String
  digest : Option String
deriving Repr, DecidableEq

/-- `error_utils.mutually_exclusive(tag=tag, digest=digest)` with the default
`None` sentinel: more than one non-`None` value raises `ValueError`. -/
def mutually_exclusive (tag digest : Option String) : Except PyErr Unit :=
  if tag.isSome && digest.isSome then
    .error (.valueError "More than one mutually exclusive parameter was defined")
  else .ok ()

/-- `DockerImageReference.__init__` on the explicit-fields path (`image_str`
absent, `name` given): the mutual-exclusivity precondition, then plain
attribute assignment.  A `str` port is converted with `int(...)` (the model
reads the digits; `int()` raising on non-digit strings is not separately
modelled, no modelled input exercises it), an `int` port stored as is, an
absent port leaving the class default `443`. -/
def mkImageRef (host : Option String) (port : Option (String ⊕ Int)) (name : String)
    (tag digest : Option String) : Except PyErr ImageRef := do
  let _ ← mutually_exclusive tag digest
  .ok { host := host,
        port := match port with
          | none => .intP 443
          | some (.inl s) => .intP (s.toInt?.getD 0)
          | some (.inr n) => .intP n,
        name := name, tag := tag, digest := digest }

/-- Python `self.port != 443` under the dynamic typing of `port`: an `int`
compares numerically, a captured string is never equal to an `int`. -/
def portNe443 : PortV → Bool
  | .intP n => n != 443
  | .strP _ => true

/-- Rendering of `port` by the f-string. -/
def portRender : PortV → String
  | .intP n => toString n
  | .strP s => s

/-- The `_image` property getter: `host[:port]/name[:tag|@digest]`, omitting
`host[:port]/` when `host` is `None` and `:port` when `port == 443`. -/
def ImageRef.image (r : ImageRef) : String :=
  let image := r.name
  let image := match r.host with
    | none => image
    | some h => (if portNe443 r.port then h ++ ":" ++ portRender r.port else h) ++ "/" ++ image
  match r.tag with
  | some t => image ++ ":" ++ t
  | none =>
      match r.digest with
      | some d => image ++ "@" ++ d
      | none => image

/-- The `_image` property setter (the `DockerImageReference(image_str)`
construction path): `image_pattern.match`, `groupdict()`, the port defaulted
to the `int` 443 when the group did not participate and otherwise kept as the
captured string, then `__dict__.update`.  A failed match leaves `match` as
`None` and `match.groupdict()` raises `AttributeError`.  The `name` group
participates in every successful match of the pattern. -/
def parseImageRef (s : String) : Except PyErr ImageRef :=
  match imageMatch s.data with
  | none => .error (.attributeError "NoneType object has no attribute groupdict")
  | some gd =>
      .ok { host := gd.host.map (fun l => String.mk l),
            port := match gd.port with
              | none => .intP 443
              | some p => .strP (String.mk p),
            name := String.mk (gd.name.getD []),
            tag := gd.tag.map (fun l => String.mk l),
            digest := gd.digest.map (fun l => String.mk l) }

/-! ### Grammar-valid reference fields

Structured forms of the field grammars of `DockerImageReferenceParts`
(spec section 4.2), used to quantify over references "constructed from valid
explicit fields".  Each structure renders to the string its grammar
generates. -/

/-- One grammar-valid host-name component: alphanumeric at both ends,
hyphens allowed in the middle (a single alphanumeric character when
`rest = []`). -/
structure HostComp where
  c0 : Char
  rest : List Char
  h0 : isAlnumU c0 = true
  hrest : ∀ c ∈ rest, isHostChar c = true
  hlast : isAlnumU (rest.getLastD c0) = true

/-- Rendered component. -/
def HostComp.render (h : HostComp) : List Char := h.c0 :: h.rest

/-- A grammar-valid DNS-style host: one or more components joined by dots. -/
structure HostName where
  comp0 : HostComp
  comps : List HostComp

/-- Rendered host name. -/
def HostName.render (h : HostName) : List Char :=
  h.comp0.render ++ h.comps.flatMap (fun c => '.' :: c.render)

/-- A grammar-valid host: DNS-style name or bracketed IPv6 literal. -/
inductive ValidHost where
  | dns (h : HostName)
  | ipv6 (cs : List Char) (ne : cs ≠ []) (hall : ∀ c ∈ cs, isIpv6Char c = true)

/-- Rendered host. -/
def ValidHost.render : ValidHost → List Char
  | .dns h => h.render
  | .ipv6 cs _ _ => '[' :: (cs ++ [']'])

/-- A nonempty lowercase-alphanumeric run. -/
structure LRun where
  c0 : Char
  rest : List Char
  h0 : isLowerAl c0 = true
  hrest : ∀ c ∈ rest, isLowerAl c = true

/-- Rendered run. -/
def LRun.render (r : LRun) : List Char := r.c0 :: r.rest

/-- A separator inside a repo-name component: one dot or underscore, two
underscores, or a nonempty run of dashes (`[-]*` matching empty merges the
neighbouring runs and is not a generator). -/
inductive NSep where
  | dot
  | und
  | dund
  | dashes (k : Nat) (hk : k ≠ 0)

/-- Rendered separator. -/
def NSep.render : NSep → List Char
  | .dot => ['.']
  | .und => ['_']
  | .dund => ['_', '_']
  | .dashes k _ => List.replicate k '-'

/-- A grammar-valid repo-name component: a run, then separator/run pairs. -/
structure NameComp where
  run0 : LRun
  more : List (NSep × LRun)

/-- Rendered component. -/
def NameComp.render (n : NameComp) : List Char :=
  n.run0.render ++ n.more.flatMap (fun p => p.1.render ++ p.2.render)

/-- A grammar-valid repo name: components joined by slashes. -/
structure ValidName where
  comp0 : NameComp
  comps : List NameComp

/-- Rendered name. -/
def ValidName.render (n : ValidName) : List Char :=
  n.comp0.render ++ n.comps.flatMap (fun c => '/' :: c.render)

/-- A grammar-valid tag: a word character then at most 127 word/dot/dash
characters. -/
structure ValidTag where
  c0 : Char
  rest : List Char
  h0 : isWordA c0 = true
  hrest : ∀ c ∈ rest, isTagChar c = true
  hlen : rest.length ≤ 127

/-- Rendered tag. -/
def ValidTag.render (t : ValidTag) : List Char := t.c0 :: t.rest

/-- One algorithm run of a digest literal: a letter then alphanumerics. -/
structure ARun where
  c0 : Char
  rest : List Char
  h0 : isLetterU c0 = true
  hrest : ∀ c ∈ rest, isAlnumU c = true

/-- Rendered run. -/
def ARun.render (r : ARun) : List Char := r.c0 :: r.rest

/-- A grammar-valid (loose) digest literal: algorithm runs joined by
`[-_+.]` separators, a colon, then at least 32 hex digits. -/
structure ValidDigest where
  run0 : ARun
  more : List (Char × ARun)
  hsep : ∀ p ∈ more, isDigSep p.1 = true
  hex : List Char
  hhex : ∀ c ∈ hex, isHexU c = true
  hlen : 32 ≤ hex.length

/-- Rendered digest literal. -/
def ValidDigest.render (d : ValidDigest) : List Char :=
  d.run0.render ++ d.more.flatMap (fun p => p.1 :: p.2.render) ++ ':' :: d.hex

/-- At most one of tag and digest, enforced structurally. -/
inductive TagOrDigest where
  | neither
  | tagged (t : ValidTag)
  | digested (d : ValidDigest)

/-- Tag field of the constructed reference. -/
def TagOrDigest.tagOf : TagOrDigest → Option String
  | .tagged t => some (String.mk t.render)
  | _ => none

/-- Digest field of the constructed reference. -/
def TagOrDigest.digestOf : TagOrDigest → Option String
  | .digested d => some (String.mk d.render)
  | _ => none

/-- The formatted suffix a tag-or-digest choice contributes after the
name. -/
def tdRender : TagOrDigest → List Char
  | .neither => []
  | .tagged t => ':' :: t.render
  | .digested d => '@' :: d.render

/-- The expected `tag` capture for a tag-or-digest choice. -/
def tdTagL : TagOrDigest → Option (List Char)
  | .tagged t => some t.render
  | _ => none

/-- The expected `digest` capture for a tag-or-digest choice. -/
def tdDigL : TagOrDigest → Option (List Char)
  | .digested d => some d.render
  | _ => none

/-- The reference built from valid explicit fields with the default port. -/
def refFrom (h : Option ValidHost) (n : ValidName) (td : TagOrDigest) : ImageRef :=
  { host := h.map (fun H => String.mk H.render),
    port := .intP 443,
    name := String.mk n.render,
    tag := td.tagOf,
    digest := td.digestOf }

/-! ### Spec-level predicates

Independent statements of the spec-side conditions the theorems relate to
the code: the structural-validation condition of section 4.5 step 2 and the
scope-matching condition of section 4.3. -/

/-- Spec section 4.5 step 2 for one access entry: an object with
`type` in the resource-type set, a string `name`, and `actions` a sequence
of strings in the action set. -/
def SpecScopeOk (v : PyVal) : Prop :=
  ∃ kvs, v = .pyDict kvs
    ∧ (∃ t, lookupDict kvs "type" = some (.pyStr t) ∧ (t = "registry" ∨ t = "repository"))
    ∧ (∃ n, lookupDict kvs "name" = some (.pyStr n))
    ∧ (∃ acts, lookupDict kvs "actions" = some (.pyList acts)
          ∧ ∀ a ∈ acts, ∃ x, a = .pyStr x ∧ (x = "push" ∨ x = "pull" ∨ x = "list"))

/-- Spec section 4.5 step 2 for the decoded claims: the `access` claim is a
sequence of well-shaped entries. -/
def SpecAccessOk (data : List (String × PyVal)) : Prop :=
  ∃ scopes, lookupDict data "access" = some (.pyList scopes) ∧ ∀ s ∈ scopes, SpecScopeOk s

/-- Spec section 4.3 single-scope rule: the grant entry `e` covers the
requested `(type, name, action)` triple — equal type, equal name, action
among the granted actions. -/
def EntryMatches (t n a : String) (e : PyVal) : Prop :=
  ∃ kvs, e = .pyDict kvs
    ∧ lookupDict kvs "type" = some (.pyStr t)
    ∧ lookupDict kvs "name" = some (.pyStr n)
    ∧ ∃ acts, lookupDict kvs "actions" = some (.pyList acts) ∧ (PyVal.pyStr a) ∈ acts

/-! ### Concrete example values used by several theorems and witnesses -/

/-- The access grant of the spec's token round-trip example. -/
def exampleGrant : PyVal :=
  .pyDict [("type", .pyStr "repository"), ("name", .pyStr "library/nginx"),
           ("actions", .pyList [.pyStr "pull"])]

/-- Decoded claims carrying the example grant (subject and friends
alongside, as the issuer writes them). -/
def exampleClaims : List (String × PyVal) :=
  [("access", .pyList [exampleGrant]), ("sub", .pyStr "alice")]

/-- The grant of the spec's scope-matching example. -/
def fooGrant : PyVal :=
  .pyDict [("type", .pyStr "repository"), ("name", .pyStr "foo"),
           ("actions", .pyList [.pyStr "pull", .pyStr "push"])]

/-! ## Theorems -/

/-- C1: the claim states that digest validation of `"sha256:" + h` succeeds
for every 64-character hex string `h` (and hence that `Blob.digest`'s
compute-then-revalidate round trip succeeds).  The code disagrees: the
per-algorithm length table `hash_lengths` is keyed by the bare algorithm
name `"sha256"`, but `_pop_prefix` hands `is_correct_length` the prefix
including its trailing colon, so the lookup raises `KeyError("sha256:")` on
every input that passed the prefix and hex checks — validation can never
succeed.  Evaluated here at a canonical well-formed digest string and at the
`from_hex` path that `Blob.digest` uses. -/
theorem digest_validate_keyerror :
    digest_validate ("sha256:" ++ String.mk (List.replicate 64 'a'))
      = .error (.keyError "sha256:")
    ∧ digest_from_hex "0123456789abcdef0123456789abcdef0123456789abcdef0123456789abcdef"
      = .error (.keyError "sha256:") := by
  constructor <;> rfl

/-- C3: construction from explicit fields with both `tag` and `digest` set
does fail fast (first conjunct), but the claim's second half fails on the
code: the conditional group of `_image_pattern_raw` is wrapped in an
optional group and the pattern is applied with `re.match`, so on a composite
carrying both `:tag` and `@digest` the match simply ends after the tag and
the construction succeeds with the digest component silently dropped
(second conjunct), instead of rejecting the string as the claim — and the
pattern's own comments, which demand the end of input after a tag — require. -/
theorem image_both_tag_digest_dropped :
    mkImageRef none none "ubuntu" (some "1.0")
        (some "sha256:aaaaaaaaaaaaaaaaaaaaaaaaaaaaaaaaaaaaaaaaaaaaaaaaaaaaaaaaaaaaaaaa")
      = .error (.valueError "More than one mutually exclusive parameter was defined")
    ∧ parseImageRef
        "ubuntu:latest@sha256:aaaaaaaaaaaaaaaaaaaaaaaaaaaaaaaaaaaaaaaaaaaaaaaaaaaaaaaaaaaaaaaa"
      = .ok { host := none, port := .intP 443, name := "ubuntu",
              tag := some "latest", digest := none } := by
  constructor <;> rfl

/-- C7: expiration resolution of `create_token` — absent means now plus the
configured default validity window; an integer below one year
(31,536,000 seconds) is relative to now, at or above it an absolute Unix
timestamp; an explicit duration is always relative; a datetime value or
datetime string is absolute. -/
theorem resolve_expiration_spec (now dflt : Int) (pd : String → Int) :
    resolve_expiration now dflt pd .noneE = now + dflt
    ∧ (∀ n : Int, n < 31536000 → resolve_expiration now dflt pd (.intE n) = now + n)
    ∧ (∀ n : Int, 31536000 ≤ n → resolve_expiration now dflt pd (.intE n) = n)
    ∧ (∀ d : Int, resolve_expiration now dflt pd (.delta d) = now + d)
    ∧ (∀ t : Int, resolve_expiration now dflt pd (.dt t) = t)
    ∧ (∀ s : String, resolve_expiration now dflt pd (.strE s) = pd s) := by
  refine ⟨rfl, ?_, ?_, fun d => rfl, fun t => rfl, fun s => rfl⟩
  · intro n hn
    simp only [resolve_expiration]
    norm_num
    omega
  · intro n hn
    simp only [resolve_expiration]
    norm_num
    omega

/-- Witness for `resolve_expiration_spec`: the spec's two worked examples,
`expiration=10` lands at now+10 and `expiration=40000000` is the literal
timestamp. -/
theorem resolve_expiration_spec_witness :
    resolve_expiration 1700000000 900 (fun _ => 0) (.intE 10) = 1700000010
    ∧ resolve_expiration 1700000000 900 (fun _ => 0) (.intE 40000000) = 40000000 := by
  have h := resolve_expiration_spec 1700000000 900 (fun _ => 0)
  exact ⟨h.2.1 10 (by norm_num), h.2.2.1 40000000 (by norm_num)⟩

/-- C2 counterexample: a token whose signature segment was tampered with
(signature verification fails, nothing else at issue) makes `get_token_data`
propagate the `jose` exception instead of returning the soft `None` —
the `except` clause names only `ExpiredSignatureError`. -/
theorem get_token_data_raises_on_bad_signature :
    get_token_data
        { claims := exampleClaims, sigValid := false, expired := false,
          issOk := true, audOk := true } = .error .joseJWTError
    ∧ get_token_data
        { claims := exampleClaims, sigValid := false, expired := false,
          issOk := true, audOk := true } ≠ .ok none := by
  refine ⟨rfl, ?_⟩
  intro h
  exact Except.noConfusion h

/-- C2 amended: only expiration is a soft failure.  An expired token (with a
valid signature) yields `None`; a failed signature check raises `JWTError`;
an issuer or audience mismatch raises `JWTClaimsError`; and a fully valid
token decodes to its claims. -/
theorem get_token_data_soft_hard_split (t : JwtToken) :
    (t.sigValid = false → get_token_data t = .error .joseJWTError)
    ∧ (t.sigValid = true → t.expired = true → get_token_data t = .ok none)
    ∧ (t.sigValid = true → t.expired = false → (t.issOk = false ∨ t.audOk = false) →
        get_token_data t = .error .joseJWTClaimsError)
    ∧ (t.sigValid = true → t.expired = false → t.issOk = true → t.audOk = true →
        get_token_data t = .ok (some t.claims)) := by
  obtain ⟨c, sv, ex, io, ao⟩ := t
  refine ⟨?_, ?_, ?_, ?_⟩
  · intro h; subst h; rfl
  · intro h1 h2; subst h1; subst h2; rfl
  · intro h1 h2 h3; subst h1; subst h2
    rcases h3 with h | h
    · subst h; rfl
    · subst h; cases io <;> rfl
  · intro h1 h2 h3 h4; subst h1; subst h2; subst h3; subst h4; rfl

/-- Witness for `get_token_data_soft_hard_split`: an expired token is a soft
`None`, a tampered one raises. -/
theorem get_token_data_soft_hard_split_witness :
    get_token_data
        { claims := exampleClaims, sigValid := true, expired := true,
          issOk := true, audOk := true } = .ok none
    ∧ get_token_data
        { claims := exampleClaims, sigValid := false, expired := false,
          issOk := false, audOk := true } = .error .joseJWTError :=
  ⟨(get_token_data_soft_hard_split _).2.1 rfl rfl,
   (get_token_data_soft_hard_split _).1 rfl⟩

/-- C5 counterexample: on a fully passing token and scope, the scoped
`validate_token_data` returns the whole decoded claims dict, not the
`access` claim the spec promises — here the claims carry a `sub` key
alongside `access`, and the returned value is the dict, provably distinct
from the access-grant list. -/
theorem validate_scoped_returns_dict_not_access :
    validate_token_data_scoped (.dct exampleClaims)
        (.single ("repository", "library/nginx", "pull"))
      = .ok (some (.pyDict exampleClaims))
    ∧ lookupDict exampleClaims "access" = some (.pyList [exampleGrant])
    ∧ validate_token_data_scoped (.dct exampleClaims)
        (.single ("repository", "library/nginx", "pull"))
      ≠ .ok (some (.pyList [exampleGrant])) := by
  refine ⟨rfl, rfl, ?_⟩
  intro h
  exact PyVal.noConfusion (Option.some.inj (Except.ok.inj h))

/-- C5 amended: when decoding and structural validation succeed and the
scope check runs without a dispatch error, the scoped validation returns
the full decoded claims dict if the requested scope is allowed (the access
grant sits inside it under `"access"`), and the soft `None` otherwise. -/
theorem validate_scoped_spec (data : TokenOrDict) (scope : ScopeArg)
    (d : List (String × PyVal)) (xs : List PyVal) (b : Bool)
    (h1 : validate_token_data_any data = .ok (some (.pyDict d)))
    (h2 : lookupDict d "access" = some (.pyList xs))
    (h3 : scope_dispatch scope xs = .ok b) :
    validate_token_data_scoped data scope
      = .ok (if b then some (.pyDict d) else none) := by
  simp only [validate_token_data_scoped, h1, pySubscript, h2, h3, bind, Except.bind]

/-- Witness for `validate_scoped_spec`: the spec's round-trip example pair —
`pull` on the granted repository is returned (as the full claims dict),
`push` is the soft `None`. -/
theorem validate_scoped_spec_witness :
    validate_token_data_scoped (.dct exampleClaims)
        (.single ("repository", "library/nginx", "push")) = .ok none
    ∧ validate_token_data_scoped (.dct exampleClaims)
        (.single ("repository", "library/nginx", "pull"))
      = .ok (some (.pyDict exampleClaims)) := by
  have h1 := validate_scoped_spec (.dct exampleClaims)
    (.single ("repository", "library/nginx", "push")) exampleClaims [exampleGrant]
    false rfl rfl rfl
  have h2 := validate_scoped_spec (.dct exampleClaims)
    (.single ("repository", "library/nginx", "pull")) exampleClaims [exampleGrant]
    true rfl rfl rfl
  exact ⟨by simpa using h1, by simpa using h2⟩

/-- Helper: `pyBeq` against a string on the right is equality with that
string value. -/
theorem pyBeq_eq_pyStr (v : PyVal) (s : String) :
    pyBeq v (.pyStr s) = true ↔ v = .pyStr s := by
  cases v <;> simp [pyBeq]

/-- Helper: `pyBeq` against a string on the left is equality with that
string value. -/
theorem pyStr_pyBeq_eq (s : String) (v : PyVal) :
    pyBeq (.pyStr s) v = true ↔ v = .pyStr s := by
  cases v <;> simp [pyBeq]
  exact eq_comm

/-- Helper: Python `x in xs` membership on a list, for a string `x`. -/
theorem any_pyBeq_str (a : String) (xs : List PyVal) :
    (xs.any (fun e => pyBeq (.pyStr a) e) = true) ↔ (PyVal.pyStr a) ∈ xs := by
  simp only [List.any_eq_true, pyStr_pyBeq_eq]
  constructor
  · rintro ⟨e, he, rfl⟩; exact he
  · intro h; exact ⟨_, h, rfl⟩

/-- Helper: one step of the `scope_is_allowed` loop on a grant entry whose
three keys are present, reduced to its decision structure. -/
theorem scope_is_allowed_cons_eval (t n a tv nv : String) (acts : List PyVal)
    (kvs : List (String × PyVal)) (rest : List PyVal)
    (htv : lookupDict kvs "type" = some (.pyStr tv))
    (hnv : lookupDict kvs "name" = some (.pyStr nv))
    (hacts : lookupDict kvs "actions" = some (.pyList acts)) :
    scope_is_allowed (t, n, a) (.pyDict kvs :: rest) =
      if tv == t then
        if nv == n then
          if acts.any (fun e => pyBeq (.pyStr a) e) then .ok true
          else scope_is_allowed (t, n, a) rest
        else scope_is_allowed (t, n, a) rest
      else scope_is_allowed (t, n, a) rest := by
  simp only [scope_is_allowed, pySubscript, htv, hnv, hacts, py_in, bind, Except.bind]
  rfl

/-- Helper: single-scope authorization is exception-free on well-shaped
grant lists, and its boolean is the existence of a covering entry. -/
theorem scope_is_allowed_ok (t n a : String) (access : List PyVal)
    (hws : ∀ e ∈ access, SpecScopeOk e) :
    ∃ b, scope_is_allowed (t, n, a) access = .ok b
      ∧ (b = true ↔ ∃ e ∈ access, EntryMatches t n a e) := by
  induction access with
  | nil => exact ⟨false, rfl, by simp⟩
  | cons sc rest ih =>
      obtain ⟨kvs, rfl, ⟨tv, htv, _⟩, ⟨nv, hnv⟩, ⟨acts, hacts, _⟩⟩ :=
        hws sc (List.mem_cons_self sc rest)
      obtain ⟨b, hb, hiff⟩ := ih (fun e he => hws e (List.mem_cons_of_mem _ he))
      rw [scope_is_allowed_cons_eval t n a tv nv acts kvs rest htv hnv hacts]
      by_cases htq : tv = t
      · subst htq
        rw [if_pos (by simp)]
        by_cases hnq : nv = n
        · subst hnq
          rw [if_pos (by simp)]
          by_cases hmem : (PyVal.pyStr a) ∈ acts
          · rw [if_pos ((any_pyBeq_str a acts).2 hmem)]
            refine ⟨true, rfl, ?_⟩
            simp only [true_iff]
            exact ⟨.pyDict kvs, List.mem_cons_self _ _,
              kvs, rfl, htv, hnv, acts, hacts, hmem⟩
          · rw [if_neg (fun hc => hmem ((any_pyBeq_str a acts).1 (by
              revert hc; cases acts.any (fun e => pyBeq (.pyStr a) e) <;> simp)))]
            refine ⟨b, hb, hiff.trans ?_⟩
            constructor
            · rintro ⟨e, he, hm⟩; exact ⟨e, List.mem_cons_of_mem _ he, hm⟩
            · rintro ⟨e, he, hm⟩
              rcases List.mem_cons.1 he with rfl | he2
              · obtain ⟨kvs2, heq, ht2, hn2, acts2, hacts2, hmem2⟩ := hm
                cases heq
                rw [hacts] at hacts2
                cases Option.some.inj hacts2
                exact absurd hmem2 hmem
              · exact ⟨e, he2, hm⟩
        · rw [if_neg (by simpa using hnq)]
          refine ⟨b, hb, hiff.trans ?_⟩
          constructor
          · rintro ⟨e, he, hm⟩; exact ⟨e, List.mem_cons_of_mem _ he, hm⟩
          · rintro ⟨e, he, hm⟩
            rcases List.mem_cons.1 he with rfl | he2
            · obtain ⟨kvs2, heq, ht2, hn2, acts2, hacts2, hmem2⟩ := hm
              cases heq
              rw [hnv] at hn2
              exact absurd (PyVal.pyStr.inj (Option.some.inj hn2)) hnq
            · exact ⟨e, he2, hm⟩
      · rw [if_neg (by simpa using htq)]
        refine ⟨b, hb, hiff.trans ?_⟩
        constructor
        · rintro ⟨e, he, hm⟩; exact ⟨e, List.mem_cons_of_mem _ he, hm⟩
        · rintro ⟨e, he, hm⟩
          rcases List.mem_cons.1 he with rfl | he2
          · obtain ⟨kvs2, heq, ht2, hn2, acts2, hacts2, hmem2⟩ := hm
            cases heq
            rw [htv] at ht2
            exact absurd (PyVal.pyStr.inj (Option.some.inj ht2)) htq
          · exact ⟨e, he2, hm⟩

/-- Helper: sequence authorization is exception-free on well-shaped grant
lists, and its boolean is the conjunction over the requested sequence. -/
theorem scope_is_allowed_list_ok (scopes : List ThrupleStr) (access : List PyVal)
    (hws : ∀ e ∈ access, SpecScopeOk e) :
    ∃ b, scope_is_allowed_list scopes access = .ok b
      ∧ (b = true ↔ ∀ sc ∈ scopes, ∃ e ∈ access, EntryMatches sc.1 sc.2.1 sc.2.2 e) := by
  induction scopes with
  | nil => exact ⟨true, rfl, by simp⟩
  | cons s rest ih =>
      obtain ⟨t, n, a⟩ := s
      obtain ⟨b1, hb1, hiff1⟩ := scope_is_allowed_ok t n a access hws
      obtain ⟨b2, hb2, hiff2⟩ := ih
      cases b1 with
      | true =>
          refine ⟨b2, ?_, ?_⟩
          · simp only [scope_is_allowed_list, hb1, bind, Except.bind, if_true]
            exact hb2
          · rw [hiff2]
            simp only [List.forall_mem_cons]
            exact ⟨fun h => ⟨hiff1.1 rfl, h⟩, fun h => h.2⟩
      | false =>
          refine ⟨false, ?_, ?_⟩
          · simp only [scope_is_allowed_list, hb1, bind, Except.bind,
              Bool.false_eq_true, if_false]
          · simp only [Bool.false_eq_true, false_iff, List.forall_mem_cons]
            intro h
            exact absurd (hiff1.2 h.1) (by simp)

/-- C6: the scope authorizer, on any well-shaped grant list, never raises;
a single requested `(type, name, action)` triple is allowed iff the grant
list contains an entry with equal type, equal name (exact string equality),
and the action among its actions; a sequence of requested scopes is allowed
iff every element is individually allowed. -/
theorem scope_authorizer_spec (t n a : String) (access : List PyVal)
    (hws : ∀ e ∈ access, SpecScopeOk e) :
    (∃ b, scope_is_allowed (t, n, a) access = .ok b
       ∧ (b = true ↔ ∃ e ∈ access, EntryMatches t n a e))
    ∧ ∀ scopes : List ThrupleStr,
        ∃ b2, scope_is_allowed_list scopes access = .ok b2
          ∧ (b2 = true ↔ ∀ sc ∈ scopes, ∃ e ∈ access, EntryMatches sc.1 sc.2.1 sc.2.2 e) :=
  ⟨scope_is_allowed_ok t n a access hws,
   fun scopes => scope_is_allowed_list_ok scopes access hws⟩

/-- Witness for `scope_authorizer_spec`: the spec's worked grant
`[(repository, "foo", [pull, push])]` with the requested triple
`(repository, "foo", "pull")`. -/
theorem scope_authorizer_spec_witness :
    (∃ b, scope_is_allowed ("repository", "foo", "pull") [fooGrant] = .ok b
       ∧ (b = true ↔ ∃ e ∈ [fooGrant], EntryMatches "repository" "foo" "pull" e))
    ∧ ∀ scopes : List ThrupleStr,
        ∃ b2, scope_is_allowed_list scopes [fooGrant] = .ok b2
          ∧ (b2 = true ↔ ∀ sc ∈ scopes, ∃ e ∈ [fooGrant], EntryMatches sc.1 sc.2.1 sc.2.2 e) := by
  refine scope_authorizer_spec "repository" "foo" "pull" [fooGrant] ?_
  intro e he
  rw [List.mem_singleton] at he
  subst he
  refine ⟨_, rfl, ⟨"repository", rfl, Or.inr rfl⟩, ⟨"foo", rfl⟩, ⟨_, rfl, ?_⟩⟩
  intro x hx
  rcases List.mem_cons.1 hx with rfl | hx2
  · exact ⟨"pull", rfl, Or.inr (Or.inl rfl)⟩
  · rw [List.mem_singleton] at hx2
    subst hx2
    exact ⟨"push", rfl, Or.inl rfl⟩

/-- Helper: the type-field check of one access entry, as an existence
statement. -/
theorem typeField_iff (o : Option PyVal) :
    (match o with
     | some (.pyStr t) => resourceTypeValues.contains t
     | _ => false) = true
      ↔ ∃ t, o = some (.pyStr t) ∧ (t = "registry" ∨ t = "repository") := by
  rcases o with - | v
  · simp
  · cases v <;> simp [resourceTypeValues]

/-- Helper: the name-field check of one access entry, as an existence
statement. -/
theorem nameField_iff (o : Option PyVal) :
    (match o with
     | some (.pyStr _) => true
     | _ => false) = true
      ↔ ∃ n, o = some (.pyStr n) := by
  rcases o with - | v
  · simp
  · cases v <;> simp

/-- Helper: the per-action check of the actions loop, as an existence
statement. -/
theorem actionElem_iff (x : PyVal) :
    (match x with
     | .pyStr s => resourceActionValues.contains s
     | _ => false) = true
      ↔ ∃ s, x = .pyStr s ∧ (s = "push" ∨ s = "pull" ∨ s = "list") := by
  cases x <;> simp [resourceActionValues]

/-- Helper: the actions-field check of one access entry, as an existence
statement. -/
theorem actionsField_iff (o : Option PyVal) :
    (match o with
     | some (.pyList acts) =>
         acts.all (fun a =>
           match a with
           | .pyStr s => resourceActionValues.contains s
           | _ => false)
     | _ => false) = true
      ↔ ∃ acts, o = some (.pyList acts)
          ∧ ∀ a ∈ acts, ∃ x, a = .pyStr x ∧ (x = "push" ∨ x = "pull" ∨ x = "list") := by
  rcases o with - | v
  · simp
  · cases v with
    | pyList xs =>
        constructor
        · intro h
          refine ⟨xs, rfl, ?_⟩
          rw [List.all_eq_true] at h
          exact fun a ha => (actionElem_iff a).1 (h a ha)
        · rintro ⟨acts, heq, hall⟩
          cases PyVal.pyList.inj (Option.some.inj heq)
          rw [List.all_eq_true]
          exact fun a ha => (actionElem_iff a).2 (hall a ha)
    | pyNone => simp
    | pyBool b => simp
    | pyInt n => simp
    | pyStr s => simp
    | pyDict kvs => simp

/-- Helper: the assert-sequence check of one access entry agrees with the
spec-level well-shapedness predicate. -/
theorem scope_shape_ok_iff (e : PyVal) : scope_shape_ok e = true ↔ SpecScopeOk e := by
  cases e with
  | pyDict kvs =>
      simp only [scope_shape_ok, Bool.and_eq_true, typeField_iff, nameField_iff,
        actionsField_iff]
      constructor
      · rintro ⟨⟨ht, hn⟩, ha⟩
        exact ⟨kvs, rfl, ht, hn, ha⟩
      · rintro ⟨kvs2, heq, ht, hn, ha⟩
        cases heq
        exact ⟨⟨ht, hn⟩, ha⟩
  | pyNone =>
      exact ⟨fun h => by simp [scope_shape_ok] at h,
             fun h => by obtain ⟨kvs, heq, -⟩ := h; exact PyVal.noConfusion heq⟩
  | pyBool b =>
      exact ⟨fun h => by simp [scope_shape_ok] at h,
             fun h => by obtain ⟨kvs, heq, -⟩ := h; exact PyVal.noConfusion heq⟩
  | pyInt n =>
      exact ⟨fun h => by simp [scope_shape_ok] at h,
             fun h => by obtain ⟨kvs, heq, -⟩ := h; exact PyVal.noConfusion heq⟩
  | pyStr s =>
      exact ⟨fun h => by simp [scope_shape_ok] at h,
             fun h => by obtain ⟨kvs, heq, -⟩ := h; exact PyVal.noConfusion heq⟩
  | pyList xs =>
      exact ⟨fun h => by simp [scope_shape_ok] at h,
             fun h => by obtain ⟨kvs, heq, -⟩ := h; exact PyVal.noConfusion heq⟩

/-- Helper: structural validation returns either the whole dict or `None`. -/
theorem validate_token_data_dict_total (d : List (String × PyVal)) :
    validate_token_data_dict d = some (.pyDict d) ∨ validate_token_data_dict d = none := by
  unfold validate_token_data_dict
  split
  next => split
          next => exact Or.inl rfl
          next => exact Or.inr rfl
  next => exact Or.inr rfl
  next => exact Or.inr rfl

/-- Helper: structural validation succeeds exactly on the spec-level
well-shaped claims. -/
theorem validate_token_data_dict_iff (d : List (String × PyVal)) :
    validate_token_data_dict d = some (.pyDict d) ↔ SpecAccessOk d := by
  unfold validate_token_data_dict
  split
  next xs heq =>
      split
      next hall =>
          simp only [true_iff]
          refine ⟨xs, heq, ?_⟩
          rw [List.all_eq_true] at hall
          exact fun s hs => (scope_shape_ok_iff s).1 (hall s hs)
      next hall =>
          constructor
          · intro h; exact absurd h (by simp)
          · rintro ⟨scopes, hsc, hws⟩
            rw [heq] at hsc
            cases Option.some.inj hsc
            exact absurd
              (List.all_eq_true.2 (fun s hs => (scope_shape_ok_iff s).2 (hws s hs)))
              hall
  next v hne heq =>
      constructor
      · intro h; exact absurd h (by simp)
      · rintro ⟨scopes, hsc, -⟩
        rw [heq] at hsc
        exact (hne scopes (Option.some.inj hsc)).elim
  next heq =>
      constructor
      · intro h; exact absurd h (by simp)
      · rintro ⟨scopes, hsc, -⟩
        rw [heq] at hsc
        exact Option.noConfusion hsc

/-- C8: whenever the decoded claims are not a well-shaped access grant —
missing `access` key, non-list `access`, a non-dict element, a missing
field, an unknown type or action, a non-string name or action — the
structural re-validation of `validate_token_data(data: dict)` returns the
soft `None`, regardless of the (already verified) signature. -/
theorem validate_rejects_malformed_access (d : List (String × PyVal))
    (h : ¬ SpecAccessOk d) : validate_token_data_dict d = none := by
  rcases validate_token_data_dict_total d with h1 | h1
  · exact absurd ((validate_token_data_dict_iff d).1 h1) h
  · exact h1

/-- Witness for `validate_rejects_malformed_access`: claims whose `access`
is a bare string. -/
theorem validate_rejects_malformed_access_witness :
    validate_token_data_dict [("access", PyVal.pyStr "root")] = none :=
  validate_rejects_malformed_access _ (by
    rintro ⟨xs, hxs, -⟩
    exact PyVal.noConfusion (Option.some.inj hxs))

/-- Helper: inversion of a successful structural validation. -/
theorem validate_dict_some_inv (d : List (String × PyVal)) (v : PyVal)
    (h : validate_token_data_dict d = some v) :
    v = .pyDict d ∧ ∃ xs, lookupDict d "access" = some (.pyList xs) := by
  unfold validate_token_data_dict at h
  split at h
  next xs heq =>
      split at h
      next => exact ⟨(Option.some.inj h).symm, xs, heq⟩
      next => exact Option.noConfusion h
  next => exact Option.noConfusion h
  next => exact Option.noConfusion h

/-- Helper: inversion of a successful single-argument validation for either
input shape. -/
theorem validate_any_ok_inv (td : TokenOrDict) (v : PyVal)
    (h : validate_token_data_any td = .ok (some v)) :
    v = .pyDict (match v with | .pyDict d => d | _ => [])
    ∧ ∃ d xs, v = .pyDict d ∧ lookupDict d "access" = some (.pyList xs) := by
  have key : ∃ d, validate_token_data_dict d = some v := by
    cases td with
    | dct d => exact ⟨d, Except.ok.inj h⟩
    | tok t =>
        simp only [validate_token_data_any] at h
        unfold validate_token_data_str at h
        cases g : get_token_data t with
        | error e =>
            rw [g] at h
            simp only [bind, Except.bind] at h
            exact Except.noConfusion h
        | ok o =>
            rw [g] at h
            simp only [bind, Except.bind] at h
            cases o with
            | none => exact Option.noConfusion (Except.ok.inj h)
            | some d => exact ⟨d, Except.ok.inj h⟩
  obtain ⟨d, hd⟩ := key
  obtain ⟨rfl, xs, hxs⟩ := validate_dict_some_inv d v hd
  exact ⟨rfl, d, xs, rfl, hxs⟩

/-- C10: the scope authorizer on an empty requested sequence is vacuously
true for every grant list (including the empty grant list), and the scoped
validation with an empty requested-scope list returns the decoded claims of
any token that passes the signature and structural checks, whatever the
token actually grants. -/
theorem empty_scope_vacuous :
    (∀ access : List PyVal, scope_is_allowed_list [] access = .ok true)
    ∧ ∀ (data : TokenOrDict) (v : PyVal),
        validate_token_data_any data = .ok (some v) →
        validate_token_data_scoped data (.multi []) = .ok (some v) := by
  refine ⟨fun access => rfl, ?_⟩
  intro data v h
  obtain ⟨-, d, xs, rfl, hacc⟩ := validate_any_ok_inv data v h
  simp only [validate_token_data_scoped, h, pySubscript, hacc, bind, Except.bind,
    scope_dispatch, scope_is_allowed_list, if_true]

/-- Witness for `empty_scope_vacuous`: a token granting nothing at all still
validates against an empty requested-scope list. -/
theorem empty_scope_vacuous_witness :
    validate_token_data_scoped (.dct [("access", PyVal.pyList [])]) (.multi [])
      = .ok (some (.pyDict [("access", PyVal.pyList [])])) :=
  empty_scope_vacuous.2 _ _ rfl

/-- C9: scope-string validation splits on spaces, splits each token on `:`,
and reads the first field as type, the last as action, and the middle
fields rejoined with `:` as name; a token with fewer than 3 colon-delimited
fields raises a `ValueError` through the whole scoped validation, before
and regardless of any token checking — a hard failure distinct from the
soft `None`. -/
theorem scope_string_parsing_spec :
    (∀ toks : List (List Char),
      (∀ tok ∈ toks, 3 ≤ (splitChar ':' tok).length) →
        parse_scopes toks = .ok (toks.map (fun tok =>
          (String.mk ((splitChar ':' tok).headD []),
           String.mk (joinChar ':' (((splitChar ':' tok).drop 1).dropLast)),
           String.mk ((splitChar ':' tok).getLastD [])))))
    ∧ (∀ toks : List (List Char),
        (∃ tok ∈ toks, (splitChar ':' tok).length < 3) →
          ∃ msg, parse_scopes toks = .error (.valueError msg))
    ∧ (∀ (data : TokenOrDict) (s : String),
        (∃ tok ∈ splitChar ' ' s.data, (splitChar ':' tok).length < 3) →
          ∃ msg, validate_token_data_strscope data s = .error (.valueError msg)) := by
  have herr : ∀ toks : List (List Char),
      (∃ tok ∈ toks, (splitChar ':' tok).length < 3) →
        ∃ msg, parse_scopes toks = .error (.valueError msg) := by
    intro toks
    induction toks with
    | nil => rintro ⟨tok, htok, -⟩; exact absurd htok (List.not_mem_nil tok)
    | cons tok rest ih =>
        rintro ⟨tok0, htok0, hlen⟩
        rcases hsp : splitChar ':' tok with - | ⟨p0, - | ⟨p1, - | ⟨p2, ps⟩⟩⟩
        case nil =>
            exact ⟨"Scope string is invalid: " ++ String.mk tok,
              by simp only [parse_scopes, hsp]⟩
        case cons.nil =>
            exact ⟨"Scope string is invalid: " ++ String.mk tok,
              by simp only [parse_scopes, hsp]⟩
        case cons.cons.nil =>
            exact ⟨"Scope string is invalid: " ++ String.mk tok,
              by simp only [parse_scopes, hsp]⟩
        case cons.cons.cons =>
            rcases List.mem_cons.1 htok0 with rfl | hmem
            · rw [hsp] at hlen
              simp only [List.length_cons] at hlen
              omega
            · obtain ⟨msg, hmsg⟩ := ih ⟨tok0, hmem, hlen⟩
              refine ⟨msg, ?_⟩
              simp only [parse_scopes, hsp, hmsg, bind, Except.bind]
  refine ⟨?_, herr, ?_⟩
  · intro toks
    induction toks with
    | nil => intro h; rfl
    | cons tok rest ih =>
        intro h
        have hlen := h tok (List.mem_cons_self tok rest)
        rcases hsp : splitChar ':' tok with - | ⟨p0, - | ⟨p1, - | ⟨p2, ps⟩⟩⟩
        · rw [hsp] at hlen; simp at hlen
        · rw [hsp] at hlen; simp at hlen
        · rw [hsp] at hlen; simp at hlen
        · have hrest := ih (fun t ht => h t (List.mem_cons_of_mem _ ht))
          simp only [parse_scopes, hsp, hrest, bind, Except.bind, List.map_cons,
            List.headD_cons, List.drop_succ_cons, List.drop_zero, List.getLastD_cons]
  · intro data s hex
    obtain ⟨msg, hmsg⟩ := herr (splitChar ' ' s.data) hex
    refine ⟨msg, ?_⟩
    simp only [validate_token_data_strscope, hmsg, bind, Except.bind]

/-- Witness for `scope_string_parsing_spec`: the spec's worked examples,
including a name that itself contains a colon. -/
theorem scope_string_parsing_spec_witness :
    parse_scopes (splitChar ' ' ("repository:library/nginx:pull repository:a:b:pull").data)
      = .ok [("repository", "library/nginx", "pull"), ("repository", "a:b", "pull")] :=
  scope_string_parsing_spec.1 _ (by decide)

/-! ### Matcher lemmas for the reference round trip

The round-trip proof tracks only the first element of each list of
successes: along the formatted string the greedy path succeeds at every
step, so the overall `re.match` result is its composition.  A "stopper"
hypothesis `∀ c, x.head? = some c → p c = false` says the remainder `x`
cannot extend a greedy run of class `p`. -/

/-- Helper: the head of an append when the first part has a head. -/
theorem head?_append_some {α : Type} {l l2 : List α} {a : α}
    (h : l.head? = some a) : (l ++ l2).head? = some a := by
  cases l with
  | nil => exact Option.noConfusion h
  | cons b t => simpa using h

/-- Helper: the head of a `flatMap` from the heads of its parts. -/
theorem head?_flatMap {α β : Type} {l : List α} {f : α → List β} {a : α} {b : β}
    (hl : l.head? = some a) (hf : (f a).head? = some b) :
    (l.flatMap f).head? = some b := by
  cases l with
  | nil => exact Option.noConfusion hl
  | cons x t =>
      cases Option.some.inj hl
      rw [List.flatMap_cons]
      exact head?_append_some hf

/-- Helper: a list with a head is nonempty (as a head of its append). -/
theorem head?_append_left {α : Type} (l l2 : List α) {a : α}
    (h : l.head? = some a) : (l ++ l2).head? = some a :=
  head?_append_some h

/-- Greedy star of a single-character class consumes a full run: the whole
list of successes, longest first. -/
theorem mStarAux_one_run (p : Char → Bool) :
    ∀ (run x : List Char) (fuel : Nat),
      (∀ c ∈ run, p c = true) →
      (∀ c, x.head? = some c → p c = false) →
      (run ++ x).length ≤ fuel →
      mStarAux (mOne p) fuel (run ++ x) = (run.tails.map (· ++ x)).reverse := by
  intro run
  induction run with
  | nil =>
      intro x fuel hrun hx hfuel
      show mStarAux (mOne p) fuel ([] ++ x) = [x]
      rw [List.nil_append]
      cases fuel with
      | zero => rfl
      | succ fuel =>
          simp only [mStarAux]
          cases x with
          | nil => rfl
          | cons c t =>
              simp [mOne, hx c rfl]
  | cons c run ih =>
      intro x fuel hrun hx hfuel
      cases fuel with
      | zero => simp at hfuel
      | succ fuel =>
          have hc : p c = true := hrun c (List.mem_cons_self c run)
          simp only [mStarAux, List.cons_append, mOne, hc, if_true]
          have hlt : (run ++ x).length < (c :: (run ++ x)).length := by simp
          simp only [List.flatMap_cons, List.flatMap_nil, List.append_nil, hlt, if_true]
          rw [ih x fuel (fun d hd => hrun d (List.mem_cons_of_mem c hd)) hx
            (by simpa using Nat.le_of_succ_le_succ (by simpa using hfuel))]
          rw [List.tails_cons, List.map_cons, List.reverse_cons, List.cons_append]

/-- Greedy star of a single-character class: the full-list form at the
standard fuel. -/
theorem mStar_one_run (p : Char → Bool) (run x : List Char)
    (hrun : ∀ c ∈ run, p c = true)
    (hx : ∀ c, x.head? = some c → p c = false) :
    mStar (mOne p) (run ++ x) = (run.tails.map (· ++ x)).reverse :=
  mStarAux_one_run p run x (run ++ x).length hrun hx (Nat.le_refl _)

/-- Helper: the head of the reversed tails-suffixed list is the bare
remainder (the greedy star prefers full consumption). -/
theorem reverse_tails_map_head (run x : List Char) :
    ((run.tails.map (· ++ x)).reverse).head? = some x := by
  induction run with
  | nil => rfl
  | cons c t ih =>
      rw [List.tails_cons, List.map_cons, List.reverse_cons]
      exact head?_append_some ih

/-- Head form of `mStar_one_run`: the first success consumes the run. -/
theorem mStar_one_head (p : Char → Bool) (run x : List Char)
    (hrun : ∀ c ∈ run, p c = true)
    (hx : ∀ c, x.head? = some c → p c = false) :
    (mStar (mOne p) (run ++ x)).head? = some x := by
  rw [mStar_one_run p run x hrun hx]
  exact reverse_tails_map_head run x

/-- Greedy `+` of a single-character class: the first success consumes the
whole nonempty run. -/
theorem mPlus_one_head (p : Char → Bool) (c0 : Char) (run x : List Char)
    (h0 : p c0 = true) (hrun : ∀ c ∈ run, p c = true)
    (hx : ∀ c, x.head? = some c → p c = false) :
    (mPlus (mOne p) ((c0 :: run) ++ x)).head? = some x := by
  simp only [mPlus, mSeq, List.cons_append, mOne, h0, if_true]
  exact head?_flatMap (l := [run ++ x]) (a := run ++ x) rfl
    (mStar_one_head p run x hrun hx)

/-- Greedy `{0,n}` of a single-character class: the first success consumes a
run of length at most `n`. -/
theorem mRepMax_one_head (p : Char → Bool) :
    ∀ (n : Nat) (run x : List Char),
      run.length ≤ n →
      (∀ c ∈ run, p c = true) →
      (∀ c, x.head? = some c → p c = false) →
      (mRepMax (mOne p) n (run ++ x)).head? = some x := by
  intro n run
  induction run generalizing n with
  | nil =>
      intro x hlen hrun hx
      cases n with
      | zero => rfl
      | succ n =>
          simp only [mRepMax, List.nil_append]
          cases x with
          | nil => rfl
          | cons c t =>
              simp only [mOne, hx c rfl, if_false, List.flatMap_nil, List.nil_append]
              rfl
  | cons c run ih =>
      intro x hlen hrun hx
      cases n with
      | zero => simp at hlen
      | succ n =>
          have hc : p c = true := hrun c (List.mem_cons_self c run)
          simp only [mRepMax, List.cons_append, mOne, hc, if_true]
          have hlt : (run ++ x).length < (c :: (run ++ x)).length := by simp
          simp only [List.flatMap_cons, List.flatMap_nil, List.append_nil, hlt, if_true]
          exact head?_append_some (ih n x (Nat.le_of_succ_le_succ (by simpa using hlen))
            (fun d hd => hrun d (List.mem_cons_of_mem c hd)) hx)

/-- Exact repetition of a single-character class: the first success consumes
exactly the run of that length. -/
theorem mCount_one_head (p : Char → Bool) :
    ∀ (n : Nat) (run x : List Char),
      run.length = n →
      (∀ c ∈ run, p c = true) →
      (mCount (mOne p) n (run ++ x)).head? = some x := by
  intro n run
  induction run generalizing n with
  | nil =>
      intro x hlen hrun
      cases hlen
      rfl
  | cons c run ih =>
      intro x hlen hrun
      cases hlen
      have hc : p c = true := hrun c (List.mem_cons_self c run)
      simp only [mCount, mSeq, List.cons_append, mOne, hc, if_true]
      exact head?_flatMap (l := [run ++ x]) (a := run ++ x) rfl
        (ih run.length x rfl (fun d hd => hrun d (List.mem_cons_of_mem c hd)))

/-- Helper: alphanumerics are host characters. -/
theorem alnum_imp_host {c : Char} (h : isAlnumU c = true) : isHostChar c = true := by
  simp [isHostChar, h]

/-- Helper: a host-character stopper also stops alphanumerics. -/
theorem host_stop_alnum {x : List Char}
    (hx : ∀ c, x.head? = some c → isHostChar c = false) :
    ∀ c, x.head? = some c → isAlnumU c = false := by
  intro c hc
  have := hx c hc
  cases ha : isAlnumU c with
  | false => rfl
  | true => rw [alnum_imp_host ha] at this; exact Bool.noConfusion this

/-- Helper: the tails of a list ending in `c` end with `[[c], []]`. -/
theorem tails_append_singleton {α : Type} (l : List α) (c : α) :
    ∃ pre, (l ++ [c]).tails = pre ++ [[c], []] := by
  induction l with
  | nil => exact ⟨[], rfl⟩
  | cons a t ih =>
      obtain ⟨pre, hp⟩ := ih
      refine ⟨((a :: t) ++ [c]) :: pre, ?_⟩
      rw [List.cons_append, List.tails_cons, ← List.cons_append, hp]
      simp

/-- One grammar-valid host component is consumed greedily by `hostCompM`. -/
theorem hostCompM_head (hc : HostComp) (x : List Char)
    (hx : ∀ c, x.head? = some c → isHostChar c = false) :
    (hostCompM (hc.render ++ x)).head? = some x := by
  obtain ⟨c0, rest, h0, hrest, hlast⟩ := hc
  show (hostCompM ((c0 :: rest) ++ x)).head? = some x
  rcases hre : rest.reverse with - | ⟨lastc, midr⟩
  · have hrest_nil : rest = [] := by
      cases rest with
      | nil => rfl
      | cons a t => simp at hre
    subst hrest_nil
    have hstar : mStar (mOne isHostChar) x = [x] := by
      have h := mStar_one_run isHostChar [] x (by simp) hx
      simpa using h
    simp only [hostCompM, mAlt, mSeq, List.cons_append, List.nil_append, mOne, h0,
      if_true, List.flatMap_cons, List.flatMap_nil, List.append_nil, hstar,
      List.nil_append]
    cases x with
    | nil => rfl
    | cons c t => simp [host_stop_alnum hx c rfl]
  · have hrest_eq : rest = midr.reverse ++ [lastc] := by
      have := congrArg List.reverse hre
      simpa using this
    have hlast2 : isAlnumU lastc = true := by
      have h2 : rest.getLastD c0 = lastc := by
        rw [hrest_eq, List.getLastD_concat]
      rw [h2] at hlast
      exact hlast
    obtain ⟨pre, hpre⟩ := tails_append_singleton midr.reverse lastc
    have hstar : mStar (mOne isHostChar) (rest ++ x)
        = x :: (lastc :: x) :: (pre.map (· ++ x)).reverse := by
      rw [mStar_one_run isHostChar rest x hrest hx, hrest_eq, hpre]
      simp [List.reverse_append]
    have hone : mOne isAlnumU x = [] := by
      cases x with
      | nil => rfl
      | cons c t => simp [mOne, host_stop_alnum hx c rfl]
    have honel : mOne isAlnumU (lastc :: x) = [x] := by
      simp [mOne, hlast2]
    simp only [hostCompM, mAlt, mSeq, List.cons_append, mOne, h0, if_true,
      List.flatMap_cons, List.flatMap_nil, List.append_nil]
    rw [hstar]
    simp only [List.flatMap_cons, hone, honel, List.nil_append, List.cons_append]
    rfl

/-- The dot-separated continuation of a host name is consumed greedily:
fuelled form over the remaining component list. -/
theorem hostDotStar_head :
    ∀ (comps : List HostComp) (x : List Char) (fuel : Nat),
      (comps.flatMap (fun c => '.' :: c.render) ++ x).length ≤ fuel →
      (∀ c, x.head? = some c → isHostChar c = false ∧ (c == '.') = false) →
      (mStarAux (mSeq (mOne (fun c => c == '.')) hostCompM) fuel
          (comps.flatMap (fun c => '.' :: c.render) ++ x)).head? = some x := by
  intro comps
  induction comps with
  | nil =>
      intro x fuel hfuel hx
      rw [List.flatMap_nil, List.nil_append]
      cases fuel with
      | zero => rfl
      | succ fuel =>
          have hdot : mOne (fun c => c == '.') x = [] := by
            cases x with
            | nil => rfl
            | cons c t => simp [mOne, (hx c rfl).2]
          simp only [mStarAux, mSeq, hdot, List.flatMap_nil, List.nil_append]
          rfl
  | cons hc comps ih =>
      intro x fuel hfuel hx
      rw [List.flatMap_cons]
      have hrest_stop : ∀ c, (comps.flatMap (fun c => '.' :: c.render) ++ x).head? = some c →
          isHostChar c = false := by
        intro c hch
        cases comps with
        | nil =>
            rw [List.flatMap_nil, List.nil_append] at hch
            exact (hx c hch).1
        | cons hc2 comps2 =>
            rw [List.flatMap_cons] at hch
            simp only [List.cons_append, List.head?_cons] at hch
            cases Option.some.inj hch
            rfl
      cases fuel with
      | zero =>
          exfalso
          rw [List.flatMap_cons] at hfuel
          simp only [List.cons_append, List.length_cons] at hfuel
          omega
      | succ fuel =>
          simp only [List.cons_append, List.append_assoc, mStarAux]
          have hbodyhead :
              ((mSeq (mOne (fun c => c == '.')) hostCompM)
                ('.' :: (hc.render ++ (comps.flatMap (fun c => '.' :: c.render) ++ x)))).head?
              = some (comps.flatMap (fun c => '.' :: c.render) ++ x) :=
            head?_append_some (hostCompM_head hc _ hrest_stop)
          refine head?_append_some (head?_flatMap hbodyhead ?_)
          have hlt : (comps.flatMap (fun c => '.' :: c.render) ++ x).length
              < ('.' :: (hc.render ++ (comps.flatMap (fun c => '.' :: c.render) ++ x))).length := by
            simp only [List.length_cons, List.length_append]
            omega
          rw [if_pos hlt]
          refine ih x fuel ?_ hx
          rw [List.flatMap_cons] at hfuel
          simp only [List.cons_append, List.length_cons, List.length_append,
            List.append_assoc] at hfuel ⊢
          omega

/-- A grammar-valid DNS host name is consumed greedily by `hostNameM`. -/
theorem hostNameM_head (H : HostName) (x : List Char)
    (hx : ∀ c, x.head? = some c → isHostChar c = false ∧ (c == '.') = false) :
    (hostNameM (H.render ++ x)).head? = some x := by
  obtain ⟨hc, comps⟩ := H
  show (hostNameM ((hc.render ++ comps.flatMap (fun c => '.' :: c.render)) ++ x)).head?
      = some x
  rw [List.append_assoc]
  have hrest_stop : ∀ c, (comps.flatMap (fun c => '.' :: c.render) ++ x).head? = some c →
      isHostChar c = false := by
    intro c hch
    cases comps with
    | nil =>
        rw [List.flatMap_nil, List.nil_append] at hch
        exact (hx c hch).1
    | cons hc2 comps2 =>
        rw [List.flatMap_cons] at hch
        simp only [List.cons_append, List.head?_cons] at hch
        cases Option.some.inj hch
        rfl
  exact head?_flatMap (hostCompM_head hc _ hrest_stop)
    (hostDotStar_head comps x _ (Nat.le_refl _) hx)

/-- A bracketed IPv6 literal is consumed greedily by `ipv6M`. -/
theorem ipv6M_head (cs : List Char) (c0 : Char) (x : List Char)
    (h0 : isIpv6Char c0 = true) (hall : ∀ c ∈ cs, isIpv6Char c = true) :
    (ipv6M ('[' :: c0 :: (cs ++ ']' :: x))).head? = some x := by
  show ((mOne (fun c => c == '[') ('[' :: c0 :: (cs ++ ']' :: x))).flatMap
      (mSeq (mPlus (mOne isIpv6Char)) (mOne (fun c => c == ']')))).head? = some x
  have h1 : mOne (fun c => c == '[') ('[' :: c0 :: (cs ++ ']' :: x))
      = [c0 :: (cs ++ ']' :: x)] := by
    simp [mOne]
  rw [h1]
  refine head?_flatMap (l := [c0 :: (cs ++ ']' :: x)]) rfl ?_
  refine head?_flatMap (mPlus_one_head isIpv6Char c0 cs (']' :: x) h0 hall ?_) ?_
  · intro c hc
    cases Option.some.inj hc
    rfl
  · simp [mOne]

/-- The host alternation on a rendered valid host followed by a slash:
the first success consumes exactly the host. -/
theorem hostM_head (H : ValidHost) (r : List Char) :
    (hostM (H.render ++ '/' :: r)).head? = some ('/' :: r) := by
  have hslash : ∀ c, ('/' :: r).head? = some c → isHostChar c = false ∧ (c == '.') = false := by
    intro c hc
    cases Option.some.inj hc
    exact ⟨rfl, rfl⟩
  cases H with
  | dns h =>
      exact head?_append_some (hostNameM_head h ('/' :: r) hslash)
  | ipv6 cs ne hall =>
      have hs : ValidHost.render (.ipv6 cs ne hall) ++ '/' :: r
          = '[' :: (cs ++ ']' :: '/' :: r) := by
        show ('[' :: (cs ++ [']'])) ++ '/' :: r = _
        rw [List.cons_append, List.append_assoc]
        rfl
      rw [hs]
      have hnil : hostNameM ('[' :: (cs ++ ']' :: '/' :: r)) = [] := by
        have hcomp : hostCompM ('[' :: (cs ++ ']' :: '/' :: r)) = [] := by
          simp [hostCompM, mAlt, mSeq, mOne, show isAlnumU '[' = false from rfl]
        show (hostCompM ('[' :: (cs ++ ']' :: '/' :: r))).flatMap
            (mStar (mSeq (mOne (fun c => c == '.')) hostCompM)) = []
        rw [hcomp]
        rfl
      unfold hostM mAlt
      rw [hnil, List.nil_append]
      cases cs with
      | nil => exact absurd rfl ne
      | cons c0 cs2 =>
          have h0 : isIpv6Char c0 = true := hall c0 (List.mem_cons_self c0 cs2)
          exact ipv6M_head cs2 c0 ('/' :: r) h0
            (fun c hc => hall c (List.mem_cons_of_mem c0 hc))

/-- Helper: the consumed part of an append whose rest is the suffix. -/
theorem consumedBy_of_append (a r : List Char) : consumedBy (a ++ r) r = a := by
  have h : (a ++ r).length - r.length = a.length := by
    simp [List.length_append]
  rw [consumedBy, h, List.take_left]

/-- The registry pattern on a rendered valid host followed by a slash (the
formatted shape with the default port omitted): the first success captures
the host, no port. -/
theorem registryM_head (H : ValidHost) (r : List Char) :
    (registryM (H.render ++ '/' :: r)).head? = some ((H.render, none), '/' :: r) := by
  unfold registryM
  refine head?_flatMap (hostM_head H r) ?_
  show (portPart (H.render ++ '/' :: r) ('/' :: r)).head? = _
  unfold portPart
  rw [consumedBy_of_append]
  rfl

/-- Helper: a lowercase alphanumeric is none of the name separators. -/
theorem lowerAl_not_sep (c : Char) (h : isLowerAl c = true) :
    ((c == '.') = false) ∧ ((c == '_') = false) ∧ ((c == '-') = false)
    ∧ ((c == '.' || c == '_') = false) := by
  have h1 : (c == '.') = false := by
    cases hb : (c == '.') with
    | false => rfl
    | true => rw [eq_of_beq hb] at h; exact absurd h (by decide)
  have h2 : (c == '_') = false := by
    cases hb : (c == '_') with
    | false => rfl
    | true => rw [eq_of_beq hb] at h; exact absurd h (by decide)
  have h3 : (c == '-') = false := by
    cases hb : (c == '-') with
    | false => rfl
    | true => rw [eq_of_beq hb] at h; exact absurd h (by decide)
  exact ⟨h1, h2, h3, by rw [h1, h2]; rfl⟩

/-- Helper: a flatMap whose first part is empty has the head of the rest. -/
theorem head?_flatMap_cons_nil {α β : Type} {a : α} {l : List α} {f : α → List β}
    (ha : f a = []) : ((a :: l).flatMap f).head? = (l.flatMap f).head? := by
  rw [List.flatMap_cons, ha, List.nil_append]

/-- A nonempty lowercase run is consumed greedily by `[a-z0-9]+`. -/
theorem lrun_head (run : LRun) (y : List Char)
    (hy : ∀ c, y.head? = some c → isLowerAl c = false) :
    ((mPlus (mOne isLowerAl)) (run.render ++ y)).head? = some y :=
  mPlus_one_head isLowerAl run.c0 run.rest y run.h0 run.hrest hy

/-- One separator-and-run body of a repo-name component is consumed
greedily, whatever the separator shape. -/
theorem nameBody_head (sep : NSep) (run : LRun) (y : List Char)
    (hy : ∀ c, y.head? = some c → isLowerAl c = false) :
    ((mSeq nameSepM (mPlus (mOne isLowerAl))) (sep.render ++ (run.render ++ y))).head?
      = some y := by
  obtain ⟨c0, rrest, h0, hrrest⟩ := run
  have hc0 := lowerAl_not_sep c0 h0
  cases sep with
  | dot =>
      show ((nameSepM ('.' :: (LRun.render ⟨c0, rrest, h0, hrrest⟩ ++ y))).flatMap
        (mPlus (mOne isLowerAl))).head? = some y
      have hsep : nameSepM ('.' :: (LRun.render ⟨c0, rrest, h0, hrrest⟩ ++ y))
          = (LRun.render ⟨c0, rrest, h0, hrrest⟩ ++ y)
            :: ('.' :: (LRun.render ⟨c0, rrest, h0, hrrest⟩ ++ y)) :: [] := by
        show (mOne (fun c => c == '.' || c == '_')) _
            ++ (mSeq (mOne (fun c => c == '_')) (mOne (fun c => c == '_'))) _
            ++ (mStar (mOne (fun c => c == '-'))) _ = _
        have hb1 : (mOne (fun c => c == '.' || c == '_'))
            ('.' :: (LRun.render ⟨c0, rrest, h0, hrrest⟩ ++ y))
            = [LRun.render ⟨c0, rrest, h0, hrrest⟩ ++ y] := by
          simp [mOne]
        have hb2 : (mSeq (mOne (fun c => c == '_')) (mOne (fun c => c == '_')))
            ('.' :: (LRun.render ⟨c0, rrest, h0, hrrest⟩ ++ y)) = [] := by
          simp [mSeq, mOne]
        have hb3 : (mStar (mOne (fun c => c == '-')))
            ('.' :: (LRun.render ⟨c0, rrest, h0, hrrest⟩ ++ y))
            = ['.' :: (LRun.render ⟨c0, rrest, h0, hrrest⟩ ++ y)] := by
          have h := mStar_one_run (fun c => c == '-') []
            ('.' :: (LRun.render ⟨c0, rrest, h0, hrrest⟩ ++ y)) (by simp)
            (by intro c hc; cases Option.some.inj hc; rfl)
          simpa using h
        rw [hb1, hb2, hb3]
        rfl
      rw [hsep]
      exact head?_flatMap rfl (lrun_head ⟨c0, rrest, h0, hrrest⟩ y hy)
  | und =>
      show ((nameSepM ('_' :: (LRun.render ⟨c0, rrest, h0, hrrest⟩ ++ y))).flatMap
        (mPlus (mOne isLowerAl))).head? = some y
      have hsep : (nameSepM ('_' :: (LRun.render ⟨c0, rrest, h0, hrrest⟩ ++ y))).head?
          = some (LRun.render ⟨c0, rrest, h0, hrrest⟩ ++ y) := by
        show ((mOne (fun c => c == '.' || c == '_')) _
            ++ (mSeq (mOne (fun c => c == '_')) (mOne (fun c => c == '_'))) _
            ++ (mStar (mOne (fun c => c == '-'))) _).head? = _
        have hb1 : (mOne (fun c => c == '.' || c == '_'))
            ('_' :: (LRun.render ⟨c0, rrest, h0, hrrest⟩ ++ y))
            = [LRun.render ⟨c0, rrest, h0, hrrest⟩ ++ y] := by
          simp [mOne]
        rw [hb1]
        rfl
      exact head?_flatMap hsep (lrun_head ⟨c0, rrest, h0, hrrest⟩ y hy)
  | dund =>
      show ((nameSepM ('_' :: '_' :: (LRun.render ⟨c0, rrest, h0, hrrest⟩ ++ y))).flatMap
        (mPlus (mOne isLowerAl))).head? = some y
      have hsep : nameSepM ('_' :: '_' :: (LRun.render ⟨c0, rrest, h0, hrrest⟩ ++ y))
          = ('_' :: (LRun.render ⟨c0, rrest, h0, hrrest⟩ ++ y))
            :: (LRun.render ⟨c0, rrest, h0, hrrest⟩ ++ y)
            :: ('_' :: '_' :: (LRun.render ⟨c0, rrest, h0, hrrest⟩ ++ y)) :: [] := by
        show (mOne (fun c => c == '.' || c == '_')) _
            ++ (mSeq (mOne (fun c => c == '_')) (mOne (fun c => c == '_'))) _
            ++ (mStar (mOne (fun c => c == '-'))) _ = _
        have hb1 : (mOne (fun c => c == '.' || c == '_'))
            ('_' :: '_' :: (LRun.render ⟨c0, rrest, h0, hrrest⟩ ++ y))
            = ['_' :: (LRun.render ⟨c0, rrest, h0, hrrest⟩ ++ y)] := by
          simp [mOne]
        have hb2 : (mSeq (mOne (fun c => c == '_')) (mOne (fun c => c == '_')))
            ('_' :: '_' :: (LRun.render ⟨c0, rrest, h0, hrrest⟩ ++ y))
            = [LRun.render ⟨c0, rrest, h0, hrrest⟩ ++ y] := by
          simp [mSeq, mOne]
        have hb3 : (mStar (mOne (fun c => c == '-')))
            ('_' :: '_' :: (LRun.render ⟨c0, rrest, h0, hrrest⟩ ++ y))
            = ['_' :: '_' :: (LRun.render ⟨c0, rrest, h0, hrrest⟩ ++ y)] := by
          have h := mStar_one_run (fun c => c == '-') []
            ('_' :: '_' :: (LRun.render ⟨c0, rrest, h0, hrrest⟩ ++ y)) (by simp)
            (by intro c hc; cases Option.some.inj hc; rfl)
          simpa using h
        rw [hb1, hb2, hb3]
        rfl
      rw [hsep]
      rw [head?_flatMap_cons_nil (by
        show ((mOne isLowerAl ('_' :: (LRun.render ⟨c0, rrest, h0, hrrest⟩ ++ y))).flatMap
          (mStar (mOne isLowerAl))) = []
        simp [mOne, show isLowerAl '_' = false from rfl])]
      exact head?_flatMap rfl (lrun_head ⟨c0, rrest, h0, hrrest⟩ y hy)
  | dashes k hk =>
      obtain ⟨k2, rfl⟩ : ∃ k2, k = k2 + 1 := by
        cases k with
        | zero => exact absurd rfl hk
        | succ k2 => exact ⟨k2, rfl⟩
      show ((nameSepM (List.replicate (k2 + 1) '-'
          ++ (LRun.render ⟨c0, rrest, h0, hrrest⟩ ++ y))).flatMap
        (mPlus (mOne isLowerAl))).head? = some y
      rw [List.replicate_succ, List.cons_append]
      have hb1 : (mOne (fun c => c == '.' || c == '_'))
          ('-' :: (List.replicate k2 '-' ++ (LRun.render ⟨c0, rrest, h0, hrrest⟩ ++ y)))
          = [] := by
        simp [mOne]
      have hb2 : (mSeq (mOne (fun c => c == '_')) (mOne (fun c => c == '_')))
          ('-' :: (List.replicate k2 '-' ++ (LRun.render ⟨c0, rrest, h0, hrrest⟩ ++ y)))
          = [] := by
        simp [mSeq, mOne]
      have hb3 : ((mStar (mOne (fun c => c == '-')))
          ('-' :: (List.replicate k2 '-' ++ (LRun.render ⟨c0, rrest, h0, hrrest⟩ ++ y)))).head?
          = some (LRun.render ⟨c0, rrest, h0, hrrest⟩ ++ y) := by
        have h := mStar_one_head (fun c => c == '-')
          ('-' :: List.replicate k2 '-') (LRun.render ⟨c0, rrest, h0, hrrest⟩ ++ y)
          (by intro c hc
              rcases List.mem_cons.1 hc with rfl | hc2
              · rfl
              · cases List.eq_of_mem_replicate hc2
                rfl)
          (by intro c hc
              rw [show (LRun.render ⟨c0, rrest, h0, hrrest⟩ ++ y).head? = some c0 from rfl] at hc
              cases Option.some.inj hc
              exact hc0.2.2.1)
        simpa using h
      show ((mOne (fun c => c == '.' || c == '_') _
          ++ (mSeq (mOne (fun c => c == '_')) (mOne (fun c => c == '_'))) _
          ++ (mStar (mOne (fun c => c == '-'))) _).flatMap
        (mPlus (mOne isLowerAl))).head? = some y
      rw [hb1, hb2, List.nil_append, List.nil_append]
      exact head?_flatMap hb3 (lrun_head ⟨c0, rrest, h0, hrrest⟩ y hy)

/-- Helper: every separator renders to a nonempty list headed by a
non-alphanumeric character. -/
theorem nsep_render_cons (sep : NSep) :
    ∃ c t, sep.render = c :: t ∧ isLowerAl c = false := by
  cases sep with
  | dot => exact ⟨'.', [], rfl, rfl⟩
  | und => exact ⟨'_', [], rfl, rfl⟩
  | dund => exact ⟨'_', ['_'], rfl, rfl⟩
  | dashes k hk =>
      cases k with
      | zero => exact absurd rfl hk
      | succ k2 => exact ⟨'-', List.replicate k2 '-', List.replicate_succ '-' k2, rfl⟩

/-- The separator-run continuation of a repo-name component is consumed
greedily: fuelled form over the remaining pair list. -/
theorem nameBodyStar_head :
    ∀ (more : List (NSep × LRun)) (y : List Char) (fuel : Nat),
      (more.flatMap (fun p => p.1.render ++ p.2.render) ++ y).length ≤ fuel →
      (∀ c, y.head? = some c → isLowerAl c = false ∧ (c == '.') = false
          ∧ (c == '_') = false ∧ (c == '-') = false) →
      (mStarAux (mSeq nameSepM (mPlus (mOne isLowerAl))) fuel
        (more.flatMap (fun p => p.1.render ++ p.2.render) ++ y)).head? = some y := by
  intro more
  induction more with
  | nil =>
      intro y fuel hfuel hy
      rw [List.flatMap_nil, List.nil_append]
      cases fuel with
      | zero => rfl
      | succ fuel =>
          have hsep : nameSepM y = [y] := by
            have hb1 : (mOne (fun c => c == '.' || c == '_')) y = [] := by
              cases y with
              | nil => rfl
              | cons c t =>
                  have h := hy c rfl
                  simp [mOne, h.2.1, h.2.2.1]
            have hb2 : (mSeq (mOne (fun c => c == '_')) (mOne (fun c => c == '_'))) y
                = [] := by
              cases y with
              | nil => rfl
              | cons c t =>
                  have h := hy c rfl
                  simp [mSeq, mOne, h.2.2.1]
            have hb3 : (mStar (mOne (fun c => c == '-'))) y = [y] := by
              have h := mStar_one_run (fun c => c == '-') [] y (by simp)
                (fun c hc => (hy c hc).2.2.2)
              simpa using h
            show (mOne (fun c => c == '.' || c == '_')) y
                ++ (mSeq (mOne (fun c => c == '_')) (mOne (fun c => c == '_'))) y
                ++ (mStar (mOne (fun c => c == '-'))) y = [y]
            rw [hb1, hb2, hb3]
            rfl
          have hbody : (mSeq nameSepM (mPlus (mOne isLowerAl))) y = [] := by
            show (nameSepM y).flatMap (mPlus (mOne isLowerAl)) = []
            rw [hsep]
            have hplus : (mPlus (mOne isLowerAl)) y = [] := by
              show (mOne isLowerAl y).flatMap (mStar (mOne isLowerAl)) = []
              have : mOne isLowerAl y = [] := by
                cases y with
                | nil => rfl
                | cons c t => simp [mOne, (hy c rfl).1]
              rw [this]
              rfl
            simp [hplus]
          simp only [mStarAux, hbody, List.flatMap_nil, List.nil_append]
          rfl
  | cons p more ih =>
      intro y fuel hfuel hy
      obtain ⟨sep, run⟩ := p
      rw [List.flatMap_cons] at hfuel
      rw [List.flatMap_cons, List.append_assoc, List.append_assoc]
      have hrl : run.render.length = run.rest.length + 1 := by
        simp [LRun.render]
      have hy2 : ∀ c, (more.flatMap (fun p => p.1.render ++ p.2.render) ++ y).head?
          = some c → isLowerAl c = false := by
        intro c hc
        cases more with
        | nil =>
            rw [List.flatMap_nil, List.nil_append] at hc
            exact (hy c hc).1
        | cons q more2 =>
            rw [List.flatMap_cons] at hc
            obtain ⟨cq, tq, hq, hql⟩ := nsep_render_cons q.1
            rw [hq] at hc
            simp only [List.cons_append, List.head?_cons] at hc
            cases Option.some.inj hc
            exact hql
      cases fuel with
      | zero =>
          exfalso
          simp only [List.length_append, hrl] at hfuel
          omega
      | succ fuel =>
          simp only [mStarAux]
          have hbody := nameBody_head sep run
            (more.flatMap (fun p => p.1.render ++ p.2.render) ++ y) hy2
          refine head?_append_some (head?_flatMap hbody ?_)
          have hlt : (more.flatMap (fun p => p.1.render ++ p.2.render) ++ y).length
              < ((sep.render ++ run.render)
                  ++ (more.flatMap (fun p => p.1.render ++ p.2.render) ++ y)).length := by
            simp only [List.length_append, hrl]
            omega
          rw [List.append_assoc] at hlt
          rw [if_pos hlt]
          refine ih y fuel ?_ hy
          simp only [List.length_append, hrl] at hfuel ⊢
          omega

/-- Helper: the separator-run continuation (or the remainder past it) never
starts with a lowercase alphanumeric. -/
theorem more_head_not_lower (more : List (NSep × LRun)) (y : List Char)
    (hy : ∀ c, y.head? = some c → isLowerAl c = false) :
    ∀ c, (more.flatMap (fun p => p.1.render ++ p.2.render) ++ y).head? = some c →
      isLowerAl c = false := by
  intro c hc
  cases more with
  | nil =>
      rw [List.flatMap_nil, List.nil_append] at hc
      exact hy c hc
  | cons q more2 =>
      rw [List.flatMap_cons] at hc
      obtain ⟨cq, tq, hq, hql⟩ := nsep_render_cons q.1
      rw [hq] at hc
      simp only [List.cons_append, List.head?_cons] at hc
      cases Option.some.inj hc
      exact hql

/-- A grammar-valid repo-name component is consumed greedily. -/
theorem nameCompM_head (nc : NameComp) (y : List Char)
    (hy : ∀ c, y.head? = some c → isLowerAl c = false ∧ (c == '.') = false
        ∧ (c == '_') = false ∧ (c == '-') = false) :
    (nameCompM (nc.render ++ y)).head? = some y := by
  obtain ⟨run0, more⟩ := nc
  show (nameCompM ((run0.render ++ more.flatMap (fun p => p.1.render ++ p.2.render)) ++ y)).head?
      = some y
  rw [List.append_assoc]
  exact head?_flatMap
    (lrun_head run0 _ (more_head_not_lower more y (fun c hc => (hy c hc).1)))
    (nameBodyStar_head more y _ (Nat.le_refl _) hy)

/-- The slash-separated continuation of a repo name is consumed greedily:
fuelled form over the remaining component list. -/
theorem nameSlashStar_head :
    ∀ (comps : List NameComp) (y : List Char) (fuel : Nat),
      (comps.flatMap (fun c => '/' :: c.render) ++ y).length ≤ fuel →
      (∀ c, y.head? = some c → isLowerAl c = false ∧ (c == '.') = false
          ∧ (c == '_') = false ∧ (c == '-') = false ∧ (c == '/') = false) →
      (mStarAux (mSeq (mOne (fun c => c == '/')) nameCompM) fuel
        (comps.flatMap (fun c => '/' :: c.render) ++ y)).head? = some y := by
  intro comps
  induction comps with
  | nil =>
      intro y fuel hfuel hy
      rw [List.flatMap_nil, List.nil_append]
      cases fuel with
      | zero => rfl
      | succ fuel =>
          have hbody : (mSeq (mOne (fun c => c == '/')) nameCompM) y = [] := by
            show (mOne (fun c => c == '/') y).flatMap nameCompM = []
            have hone : mOne (fun c => c == '/') y = [] := by
              cases y with
              | nil => rfl
              | cons c t => simp [mOne, (hy c rfl).2.2.2.2]
            rw [hone]
            rfl
          simp only [mStarAux, hbody, List.flatMap_nil, List.nil_append]
          rfl
  | cons nc comps ih =>
      intro y fuel hfuel hy
      rw [List.flatMap_cons] at hfuel
      rw [List.flatMap_cons]
      simp only [List.cons_append, List.append_assoc]
      have hstop : ∀ c, (comps.flatMap (fun c => '/' :: c.render) ++ y).head? = some c →
          isLowerAl c = false ∧ (c == '.') = false ∧ (c == '_') = false
          ∧ (c == '-') = false := by
        intro c hc
        cases comps with
        | nil =>
            rw [List.flatMap_nil, List.nil_append] at hc
            exact ⟨(hy c hc).1, (hy c hc).2.1, (hy c hc).2.2.1, (hy c hc).2.2.2.1⟩
        | cons nc2 comps2 =>
            rw [List.flatMap_cons] at hc
            simp only [List.cons_append, List.head?_cons] at hc
            cases Option.some.inj hc
            exact ⟨rfl, rfl, rfl, rfl⟩
      cases fuel with
      | zero =>
          exfalso
          simp only [List.cons_append, List.length_cons] at hfuel
          omega
      | succ fuel =>
          simp only [mStarAux]
          have hbody : ((mSeq (mOne (fun c => c == '/')) nameCompM)
              ('/' :: (nc.render ++ (comps.flatMap (fun c => '/' :: c.render) ++ y)))).head?
              = some (comps.flatMap (fun c => '/' :: c.render) ++ y) :=
            head?_append_some (nameCompM_head nc _ hstop)
          refine head?_append_some (head?_flatMap hbody ?_)
          have hlt : (comps.flatMap (fun c => '/' :: c.render) ++ y).length
              < ('/' :: (nc.render ++ (comps.flatMap (fun c => '/' :: c.render) ++ y))).length := by
            simp only [List.length_cons, List.length_append]
            omega
          rw [if_pos hlt]
          refine ih y fuel ?_ hy
          simp only [List.cons_append, List.length_cons, List.length_append] at hfuel ⊢
          omega

/-- A grammar-valid repo name is consumed greedily by the `name` group. -/
theorem nameM_head (vn : ValidName) (y : List Char)
    (hy : ∀ c, y.head? = some c → isLowerAl c = false ∧ (c == '.') = false
        ∧ (c == '_') = false ∧ (c == '-') = false ∧ (c == '/') = false) :
    (nameM (vn.render ++ y)).head? = some y := by
  obtain ⟨comp0, comps⟩ := vn
  show (nameM ((comp0.render ++ comps.flatMap (fun c => '/' :: c.render)) ++ y)).head?
      = some y
  rw [List.append_assoc]
  have hstop : ∀ c, (comps.flatMap (fun c => '/' :: c.render) ++ y).head? = some c →
      isLowerAl c = false ∧ (c == '.') = false ∧ (c == '_') = false
      ∧ (c == '-') = false := by
    intro c hc
    cases comps with
    | nil =>
        rw [List.flatMap_nil, List.nil_append] at hc
        exact ⟨(hy c hc).1, (hy c hc).2.1, (hy c hc).2.2.1, (hy c hc).2.2.2.1⟩
    | cons nc2 comps2 =>
        rw [List.flatMap_cons] at hc
        simp only [List.cons_append, List.head?_cons] at hc
        cases Option.some.inj hc
        exact ⟨rfl, rfl, rfl, rfl⟩
  exact head?_flatMap (nameCompM_head comp0 _ hstop)
    (nameSlashStar_head comps y _ (Nat.le_refl _) hy)

/-- A grammar-valid tag at the end of the input is consumed exactly. -/
theorem tagM_head (t : ValidTag) : (tagM t.render).head? = some [] := by
  obtain ⟨c0, rest, h0, hrest, hlen⟩ := t
  show ((mOne isWordA (c0 :: rest)).flatMap (mRepMax (mOne isTagChar) 127)).head? = some []
  rw [show mOne isWordA (c0 :: rest) = [rest] by simp [mOne, h0]]
  refine head?_flatMap rfl ?_
  have h := mRepMax_one_head isTagChar 127 rest [] hlen hrest
    (fun c hc => Option.noConfusion hc)
  simpa using h

/-- An algorithm run of a digest literal is consumed greedily. -/
theorem algRunM_head (r : ARun) (y : List Char)
    (hy : ∀ c, y.head? = some c → isAlnumU c = false) :
    (algRunM (r.render ++ y)).head? = some y := by
  obtain ⟨c0, rest, h0, hrest⟩ := r
  show ((mOne isLetterU ((c0 :: rest) ++ y)).flatMap (mStar (mOne isAlnumU))).head? = some y
  rw [show mOne isLetterU ((c0 :: rest) ++ y) = [rest ++ y] by simp [mOne, h0]]
  exact head?_flatMap rfl (mStar_one_head isAlnumU rest y hrest hy)

/-- Helper: a digest separator is not alphanumeric. -/
theorem digsep_not_alnum {c : Char} (h : isDigSep c = true) : isAlnumU c = false := by
  have h2 : c = '-' ∨ c = '_' ∨ c = '+' ∨ c = '.' := by
    simp only [isDigSep, Bool.or_eq_true, beq_iff_eq] at h
    tauto
  rcases h2 with rfl | rfl | rfl | rfl <;> rfl

/-- The separator-run continuation of a digest literal is consumed
greedily: fuelled form over the remaining pair list. -/
theorem digSepStar_head :
    ∀ (more : List (Char × ARun)) (y : List Char) (fuel : Nat),
      (∀ p ∈ more, isDigSep p.1 = true) →
      (more.flatMap (fun p => p.1 :: p.2.render) ++ y).length ≤ fuel →
      (∀ c, y.head? = some c → isDigSep c = false ∧ isAlnumU c = false) →
      (mStarAux (mSeq (mOne isDigSep) algRunM) fuel
        (more.flatMap (fun p => p.1 :: p.2.render) ++ y)).head? = some y := by
  intro more
  induction more with
  | nil =>
      intro y fuel hsep hfuel hy
      rw [List.flatMap_nil, List.nil_append]
      cases fuel with
      | zero => rfl
      | succ fuel =>
          have hbody : (mSeq (mOne isDigSep) algRunM) y = [] := by
            show (mOne isDigSep y).flatMap algRunM = []
            have hone : mOne isDigSep y = [] := by
              cases y with
              | nil => rfl
              | cons c t => simp [mOne, (hy c rfl).1]
            rw [hone]
            rfl
          simp only [mStarAux, hbody, List.flatMap_nil, List.nil_append]
          rfl
  | cons p more ih =>
      intro y fuel hsep hfuel hy
      obtain ⟨sc, run⟩ := p
      have hsc : isDigSep sc = true := hsep (sc, run) (List.mem_cons_self _ _)
      rw [List.flatMap_cons] at hfuel
      rw [List.flatMap_cons]
      simp only [List.cons_append, List.append_assoc]
      have hstop : ∀ c, (more.flatMap (fun p => p.1 :: p.2.render) ++ y).head? = some c →
          isAlnumU c = false := by
        intro c hc
        cases more with
        | nil =>
            rw [List.flatMap_nil, List.nil_append] at hc
            exact (hy c hc).2
        | cons q more2 =>
            rw [List.flatMap_cons] at hc
            simp only [List.cons_append, List.head?_cons] at hc
            cases Option.some.inj hc
            exact digsep_not_alnum (hsep q (List.mem_cons_of_mem _ (List.mem_cons_self _ _)))
      cases fuel with
      | zero =>
          exfalso
          simp only [List.cons_append, List.length_cons] at hfuel
          omega
      | succ fuel =>
          simp only [mStarAux]
          have hbody : ((mSeq (mOne isDigSep) algRunM)
              (sc :: (run.render ++ (more.flatMap (fun p => p.1 :: p.2.render) ++ y)))).head?
              = some (more.flatMap (fun p => p.1 :: p.2.render) ++ y) := by
            show ((mOne isDigSep (sc :: (run.render
                ++ (more.flatMap (fun p => p.1 :: p.2.render) ++ y)))).flatMap algRunM).head? = _
            rw [show mOne isDigSep (sc :: (run.render
                ++ (more.flatMap (fun p => p.1 :: p.2.render) ++ y)))
              = [run.render ++ (more.flatMap (fun p => p.1 :: p.2.render) ++ y)] by
                simp [mOne, hsc]]
            exact head?_flatMap rfl (algRunM_head run _ hstop)
          refine head?_append_some (head?_flatMap hbody ?_)
          have hrl : run.render.length = run.rest.length + 1 := by
            simp [ARun.render]
          have hlt : (more.flatMap (fun p => p.1 :: p.2.render) ++ y).length
              < (sc :: (run.render ++ (more.flatMap (fun p => p.1 :: p.2.render) ++ y))).length := by
            simp only [List.length_cons, List.length_append]
            omega
          rw [if_pos hlt]
          refine ih y fuel (fun q hq => hsep q (List.mem_cons_of_mem _ hq)) ?_ hy
          simp only [List.cons_append, List.length_cons, List.length_append, hrl] at hfuel ⊢
          omega

/-- A grammar-valid digest literal at the end of the input is consumed
exactly. -/
theorem digestM_head (d : ValidDigest) : (digestM d.render).head? = some [] := by
  rw [show d.render = d.run0.render
      ++ (d.more.flatMap (fun p => p.1 :: p.2.render) ++ ':' :: d.hex) from
    List.append_assoc _ _ _]
  have hstop1 : ∀ c, (d.more.flatMap (fun p => p.1 :: p.2.render) ++ ':' :: d.hex).head?
      = some c → isAlnumU c = false := by
    intro c hc
    cases hm : d.more with
    | nil =>
        rw [hm, List.flatMap_nil, List.nil_append] at hc
        cases Option.some.inj hc
        rfl
    | cons q more2 =>
        rw [hm, List.flatMap_cons] at hc
        simp only [List.cons_append, List.head?_cons] at hc
        cases Option.some.inj hc
        exact digsep_not_alnum (d.hsep q (hm ▸ List.mem_cons_self _ _))
  refine head?_flatMap (algRunM_head d.run0 _ hstop1) ?_
  have hstar := digSepStar_head d.more (':' :: d.hex) _ d.hsep (Nat.le_refl _)
    (fun c hc => by cases Option.some.inj hc; exact ⟨rfl, rfl⟩)
  refine head?_flatMap hstar ?_
  show ((mOne (fun c => c == ':') (':' :: d.hex)).flatMap _).head? = some []
  rw [show mOne (fun c => c == ':') (':' :: d.hex) = [d.hex] by simp [mOne]]
  refine head?_flatMap rfl ?_
  have hsplit : d.hex = d.hex.take 32 ++ d.hex.drop 32 := (List.take_append_drop 32 d.hex).symm
  have htl : (d.hex.take 32).length = 32 := by
    rw [List.length_take]
    have := d.hlen
    omega
  rw [hsplit]
  refine head?_flatMap (mCount_one_head isHexU 32 (d.hex.take 32) (d.hex.drop 32) htl
    (fun c hc => d.hhex c (List.mem_of_mem_take hc))) ?_
  have h := mStar_one_head isHexU (d.hex.drop 32) []
    (fun c hc => d.hhex c (List.mem_of_mem_drop hc))
    (fun c hc => Option.noConfusion hc)
  simpa using h

/-- Helper: results of a single-character matcher are suffixes of the
input. -/
theorem mOne_suffix (p : Char → Bool) : ∀ s r, r ∈ mOne p s → r.IsSuffix s := by
  intro s r hr
  cases s with
  | nil => exact absurd hr (List.not_mem_nil r)
  | cons c t =>
      simp only [mOne] at hr
      split at hr
      · rw [List.mem_singleton] at hr
        subst hr
        exact List.suffix_cons c r
      · exact absurd hr (List.not_mem_nil r)

/-- Helper: suffix-closure is preserved by concatenation. -/
theorem mSeq_suffix {a b : Matcher}
    (ha : ∀ s r, r ∈ a s → r.IsSuffix s) (hb : ∀ s r, r ∈ b s → r.IsSuffix s) :
    ∀ s r, r ∈ mSeq a b s → r.IsSuffix s := by
  intro s r hr
  rw [mSeq, List.mem_flatMap] at hr
  obtain ⟨q, hq, hrq⟩ := hr
  exact (hb q r hrq).trans (ha s q hq)

/-- Helper: suffix-closure is preserved by alternation. -/
theorem mAlt_suffix {a b : Matcher}
    (ha : ∀ s r, r ∈ a s → r.IsSuffix s) (hb : ∀ s r, r ∈ b s → r.IsSuffix s) :
    ∀ s r, r ∈ mAlt a b s → r.IsSuffix s := by
  intro s r hr
  rw [mAlt, List.mem_append] at hr
  rcases hr with hr | hr
  · exact ha s r hr
  · exact hb s r hr

/-- Helper: suffix-closure is preserved by the fuelled star. -/
theorem mStarAux_suffix {a : Matcher} (ha : ∀ s r, r ∈ a s → r.IsSuffix s) :
    ∀ fuel s r, r ∈ mStarAux a fuel s → r.IsSuffix s := by
  intro fuel
  induction fuel with
  | zero =>
      intro s r hr
      rw [mStarAux, List.mem_singleton] at hr
      subst hr
      exact List.suffix_refl r
  | succ fuel ih =>
      intro s r hr
      rw [mStarAux, List.mem_append] at hr
      rcases hr with hr | hr
      · rw [List.mem_flatMap] at hr
        obtain ⟨q, hq, hrq⟩ := hr
        by_cases hlt : q.length < s.length
        · rw [if_pos hlt] at hrq
          exact (ih q r hrq).trans (ha s q hq)
        · rw [if_neg hlt, List.mem_singleton] at hrq
          subst hrq
          exact ha s r hq
      · rw [List.mem_singleton] at hr
        subst hr
        exact List.suffix_refl r

/-- Helper: suffix-closure for the star. -/
theorem mStar_suffix {a : Matcher} (ha : ∀ s r, r ∈ a s → r.IsSuffix s) :
    ∀ s r, r ∈ mStar a s → r.IsSuffix s := by
  intro s r hr
  exact mStarAux_suffix ha s.length s r hr

/-- Helper: suffix-closure for plus. -/
theorem mPlus_suffix {a : Matcher} (ha : ∀ s r, r ∈ a s → r.IsSuffix s) :
    ∀ s r, r ∈ mPlus a s → r.IsSuffix s :=
  mSeq_suffix ha (mStar_suffix ha)

/-- Helper: every rest produced by the host alternation is a suffix of its
input. -/
theorem hostM_suffix : ∀ s r, r ∈ hostM s → r.IsSuffix s := by
  have hcomp : ∀ s r, r ∈ hostCompM s → r.IsSuffix s :=
    mAlt_suffix
      (mSeq_suffix (mOne_suffix _) (mSeq_suffix (mStar_suffix (mOne_suffix _)) (mOne_suffix _)))
      (mOne_suffix _)
  exact mAlt_suffix
    (mSeq_suffix hcomp (mStar_suffix (mSeq_suffix (mOne_suffix _) hcomp)))
    (mSeq_suffix (mOne_suffix _) (mSeq_suffix (mPlus_suffix (mOne_suffix _)) (mOne_suffix _)))

/-- Helper: every rest produced by the registry pattern is a suffix of its
input. -/
theorem registryM_rest_suffix (s : List Char) :
    ∀ x ∈ registryM s, x.2.IsSuffix s := by
  intro x hx
  rw [registryM, List.mem_flatMap] at hx
  obtain ⟨s1, hs1, hxp⟩ := hx
  have hs1s : s1.IsSuffix s := hostM_suffix s s1 hs1
  have hpeq : ∀ t : List Char, portPart s t
      = (match t with
         | ':' :: s2 => ((mPlus (mOne isDigitU)) s2).map
             (fun s3 => ((consumedBy s t, some (consumedBy s2 s3)), s3))
         | _ => []) ++ [((consumedBy s t, none), t)] := fun t => rfl
  rw [hpeq, List.mem_append] at hxp
  rcases hxp with hxp | hxp
  · split at hxp
    next s2 =>
        rw [List.mem_map] at hxp
        obtain ⟨s3, hs3, hx3⟩ := hxp
        rw [← hx3]
        exact ((mPlus_suffix (mOne_suffix _) s2 s3 hs3).trans
          (List.suffix_cons ':' s2)).trans hs1s
    next => exact absurd hxp (List.not_mem_nil x)
  · rw [List.mem_singleton] at hxp
    subst hxp
    exact hs1s

/-- Helper: the head of a mapped list. -/
theorem head?_map_some {α β : Type} {l : List α} {a : α} (f : α → β)
    (h : l.head? = some a) : (l.map f).head? = some (f a) := by
  cases l with
  | nil => exact Option.noConfusion h
  | cons x t =>
      cases Option.some.inj h
      rfl

/-- Helper: an exhausted input means everything was consumed. -/
theorem consumedBy_nil (l : List Char) : consumedBy l [] = l := by
  simp [consumedBy]

/-- Helper: the formatted tag/digest suffix stops every name-grammar run. -/
theorem tdRender_stopper (td : TagOrDigest) :
    ∀ c, (tdRender td).head? = some c → isLowerAl c = false ∧ (c == '.') = false
        ∧ (c == '_') = false ∧ (c == '-') = false ∧ (c == '/') = false := by
  intro c hc
  cases td with
  | neither => exact Option.noConfusion hc
  | tagged t =>
      cases Option.some.inj hc
      exact ⟨rfl, rfl, rfl, rfl, rfl⟩
  | digested d =>
      cases Option.some.inj hc
      exact ⟨rfl, rfl, rfl, rfl, rfl⟩

/-- The tag-and-conditional tail of the image pattern on a formatted
tag-or-digest suffix: the first success captures exactly the choice and
ends at the end of input. -/
theorem tagcond_head (ho po : Option (List Char)) (na : List Char) (td : TagOrDigest) :
    ((tagPart (tdRender td)).flatMap (fun tb =>
        (condPart tb.1 tb.2).map (fun cb =>
          (({ host := ho, port := po, name := some na,
              tag := tb.1, digest := cb.1 } : GroupDict), cb.2)))).head?
      = some ({ host := ho, port := po, name := some na,
                tag := tdTagL td, digest := tdDigL td }, []) := by
  cases td with
  | neither => rfl
  | tagged t =>
      have htag : (tagPart (tdRender (.tagged t))).head?
          = some (some t.render, []) := by
        show ((tagM t.render).map (fun s3 => (some (consumedBy t.render s3), s3))
            ++ [(none, ':' :: t.render)]).head? = _
        refine head?_append_some ?_
        simpa [consumedBy_nil] using
          head?_map_some (fun s3 => (some (consumedBy t.render s3), s3)) (tagM_head t)
      refine head?_flatMap htag ?_
      show ((condPart (some t.render) []).map _).head? = _
      rfl
  | digested d =>
      have htag : (tagPart (tdRender (.digested d))).head?
          = some (none, '@' :: d.render) := rfl
      refine head?_flatMap htag ?_
      show ((condPart none ('@' :: d.render)).map _).head? = _
      have hcond : (condPart none ('@' :: d.render)).head?
          = some (some d.render, []) := by
        show (((digestM d.render).map (fun s4 => (some (consumedBy d.render s4), s4)))
            ++ [(none, '@' :: d.render)]).head? = _
        refine head?_append_some ?_
        simpa [consumedBy_nil] using
          head?_map_some (fun s4 => (some (consumedBy d.render s4), s4)) (digestM_head d)
      exact head?_map_some _ hcond

/-- The repo pattern on a hosted formatted reference: the greedy first
success captures the host (no port) and the name. -/
theorem repoM_head_hosted (H : ValidHost) (n : ValidName) (suffix : List Char)
    (hsuf : ∀ c, suffix.head? = some c → isLowerAl c = false ∧ (c == '.') = false
        ∧ (c == '_') = false ∧ (c == '-') = false ∧ (c == '/') = false) :
    (repoM (H.render ++ '/' :: (n.render ++ suffix))).head?
      = some ((some H.render, none, n.render), suffix) := by
  unfold repoM
  refine head?_append_some (head?_flatMap (registryM_head H (n.render ++ suffix)) ?_)
  show ((nameM (n.render ++ suffix)).map _).head? = _
  simpa [consumedBy_of_append] using
    head?_map_some
      (fun s3 => ((some H.render, (none : Option (List Char)),
          consumedBy (n.render ++ suffix) s3), s3))
      (nameM_head n suffix hsuf)

/-- Helper: no slash occurs in a rendered name component. -/
theorem namecomp_no_slash (nc : NameComp) : ∀ c ∈ nc.render, c ≠ '/' := by
  intro c hc
  rw [NameComp.render, List.mem_append] at hc
  have hlrun : ∀ (r : LRun) (c2 : Char), c2 ∈ r.render → c2 ≠ '/' := by
    intro r c2 hc2 heq
    subst heq
    rcases List.mem_cons.1 hc2 with h | h
    · have h2 := r.h0
      rw [← h] at h2
      exact absurd h2 (by decide)
    · exact absurd (r.hrest _ h) (by decide)
  rcases hc with hc | hc
  · exact hlrun nc.run0 c hc
  · rw [List.mem_flatMap] at hc
    obtain ⟨p, hp, hcp⟩ := hc
    rw [List.mem_append] at hcp
    rcases hcp with hcp | hcp
    · intro heq
      subst heq
      cases hs : p.1 with
      | dot => rw [hs] at hcp; simp [NSep.render] at hcp
      | und => rw [hs] at hcp; simp [NSep.render] at hcp
      | dund => rw [hs] at hcp; simp [NSep.render] at hcp
      | dashes k hk =>
          rw [hs] at hcp
          exact absurd (List.eq_of_mem_replicate hcp) (by decide)
    · exact hlrun p.2 c hcp
  
/-- Helper: no slash occurs in a rendered tag/digest suffix. -/
theorem tdRender_no_slash (td : TagOrDigest) : ∀ c ∈ tdRender td, c ≠ '/' := by
  intro c hc
  cases td with
  | neither => exact absurd hc (List.not_mem_nil c)
  | tagged t =>
      rcases List.mem_cons.1 hc with rfl | hc2
      · decide
      · rw [ValidTag.render] at hc2
        rcases List.mem_cons.1 hc2 with rfl | hc3
        · intro heq
          exact absurd (heq ▸ t.h0) (by decide)
        · intro heq
          exact absurd (heq ▸ t.hrest c hc3) (by decide)
  | digested d =>
      have harun : ∀ (r : ARun) (c2 : Char), c2 ∈ r.render → c2 ≠ '/' := by
        intro r c2 hc2 heq
        subst heq
        rcases List.mem_cons.1 hc2 with h | h
        · exact absurd (h ▸ r.h0) (by decide)
        · exact absurd (r.hrest _ h) (by decide)
      rcases List.mem_cons.1 hc with rfl | hc2
      · decide
      · rw [ValidDigest.render] at hc2
        rw [List.append_assoc, List.mem_append] at hc2
        rcases hc2 with hc2 | hc2
        · exact harun d.run0 c hc2
        · rw [List.mem_append] at hc2
          rcases hc2 with hc2 | hc2
          · rw [List.mem_flatMap] at hc2
            obtain ⟨p, hp, hcp⟩ := hc2
            rcases List.mem_cons.1 hcp with rfl | hcp2
            · intro heq
              exact absurd (heq ▸ d.hsep p hp) (by decide)
            · exact harun p.2 c hcp2
          · rcases List.mem_cons.1 hc2 with rfl | hc3
            · decide
            · intro heq
              exact absurd (heq ▸ d.hhex c hc3) (by decide)

/-- The repo pattern on a slash-free input: the registry branch contributes
nothing and the greedy first success is the bare name. -/
theorem repoM_head_noslash (vn : ValidName) (suffix : List Char)
    (hsuf : ∀ c, suffix.head? = some c → isLowerAl c = false ∧ (c == '.') = false
        ∧ (c == '_') = false ∧ (c == '-') = false ∧ (c == '/') = false)
    (hnos : ∀ c ∈ vn.render ++ suffix, c ≠ '/') :
    (repoM (vn.render ++ suffix)).head? = some ((none, none, vn.render), suffix) := by
  unfold repoM
  have hbranch : ((registryM (vn.render ++ suffix)).flatMap (fun x =>
      match x.2 with
      | '/' :: s2 => (nameM s2).map
          (fun s3 => ((some x.1.1, x.1.2, consumedBy s2 s3), s3))
      | _ => [])) = [] := by
    rw [List.eq_nil_iff_forall_not_mem]
    intro y hy
    rw [List.mem_flatMap] at hy
    obtain ⟨x, hx, hyg⟩ := hy
    have hsfx := registryM_rest_suffix _ x hx
    cases hx2 : x.2 with
    | nil =>
        rw [hx2] at hyg
        exact absurd hyg (List.not_mem_nil y)
    | cons c t =>
        rw [hx2] at hyg hsfx
        split at hyg
        next s2 heq =>
            injection heq with h1 h2
            subst h1
            have hm : '/' ∈ vn.render ++ suffix :=
              hsfx.subset (List.mem_cons_self '/' t)
            exact hnos '/' hm rfl
        next => exact absurd hyg (List.not_mem_nil y)
  rw [hbranch, List.nil_append]
  simpa [consumedBy_of_append] using
    head?_map_some
      (fun s2 => (((none : Option (List Char)), (none : Option (List Char)),
          consumedBy (vn.render ++ suffix) s2), s2))
      (nameM_head vn suffix hsuf)

/-- The image pattern on a hosted formatted reference: the greedy first
success captures host, name, and the tag-or-digest choice, ending at the
end of input. -/
theorem imageM_head_hosted (H : ValidHost) (n : ValidName) (td : TagOrDigest) :
    (imageM (H.render ++ '/' :: (n.render ++ tdRender td))).head?
      = some ({ host := some H.render, port := none, name := some n.render,
                tag := tdTagL td, digest := tdDigL td }, []) := by
  unfold imageM
  exact head?_flatMap (repoM_head_hosted H n (tdRender td) (tdRender_stopper td))
    (tagcond_head (some H.render) none n.render td)

/-- The image pattern on a host-free, slash-free formatted reference. -/
theorem imageM_head_noslash (nc : NameComp) (td : TagOrDigest) :
    (imageM ((ValidName.mk nc []).render ++ tdRender td)).head?
      = some ({ host := none, port := none, name := some (ValidName.mk nc []).render,
                tag := tdTagL td, digest := tdDigL td }, []) := by
  unfold imageM
  have hnos : ∀ c ∈ (ValidName.mk nc []).render ++ tdRender td, c ≠ '/' := by
    intro c hc
    rw [List.mem_append] at hc
    rcases hc with hc | hc
    · rw [show (ValidName.mk nc []).render = nc.render ++ [] from rfl,
        List.append_nil] at hc
      exact namecomp_no_slash nc c hc
    · exact tdRender_no_slash td c hc
  exact head?_flatMap
    (repoM_head_noslash (ValidName.mk nc []) (tdRender td) (tdRender_stopper td) hnos)
    (tagcond_head none none (ValidName.mk nc []).render td)

/-- Helper: `re.match` returns the head of the success list. -/
theorem imageMatch_of_head (s : List Char) (gd : GroupDict) (r : List Char)
    (h : (imageM s).head? = some (gd, r)) : imageMatch s = some gd := by
  unfold imageMatch
  cases him : imageM s with
  | nil => rw [him] at h; exact Option.noConfusion h
  | cons x t =>
      rw [him] at h
      cases Option.some.inj h
      rfl

/-- Helper: the characters of a hosted formatted reference. -/
theorem format_data_hosted (H : ValidHost) (n : ValidName) (td : TagOrDigest) :
    (ImageRef.image (refFrom (some H) n td)).data
      = H.render ++ '/' :: (n.render ++ tdRender td) := by
  cases td <;>
    simp [ImageRef.image, refFrom, TagOrDigest.tagOf, TagOrDigest.digestOf, portNe443,
      tdRender, String.data_append, List.append_assoc,
      show ("/" : String).data = ['/'] from rfl,
      show (":" : String).data = [':'] from rfl,
      show ("@" : String).data = ['@'] from rfl]

/-- Helper: the characters of a host-free formatted reference. -/
theorem format_data_hostfree (n : ValidName) (td : TagOrDigest) :
    (ImageRef.image (refFrom none n td)).data = n.render ++ tdRender td := by
  cases td <;>
    simp [ImageRef.image, refFrom, TagOrDigest.tagOf, TagOrDigest.digestOf,
      tdRender, String.data_append,
      show (":" : String).data = [':'] from rfl,
      show ("@" : String).data = ['@'] from rfl]

/-- C4 counterexample: the round trip fails on valid explicit fields.
With an explicit non-default port, the parsed reference stores the port as
the captured digit string while the constructed one stores an `int`, so the
fields differ; and with no host and the spec's own name `library/nginx`,
parsing misattributes the first name component as a registry host. -/
theorem image_roundtrip_fails :
    mkImageRef (some "example.com") (some (Sum.inr 8080)) "ubuntu" none none
      = .ok { host := some "example.com", port := .intP 8080, name := "ubuntu",
              tag := none, digest := none }
    ∧ parseImageRef (ImageRef.image
        { host := some "example.com", port := .intP 8080,
          name := "ubuntu", tag := none, digest := none })
      = .ok { host := some "example.com", port := .strP "8080", name := "ubuntu",
              tag := none, digest := none }
    ∧ (PortV.strP "8080") ≠ (PortV.intP 8080)
    ∧ mkImageRef none none "library/nginx" none none
      = .ok { host := none, port := .intP 443, name := "library/nginx",
              tag := none, digest := none }
    ∧ parseImageRef (ImageRef.image
        { host := none, port := .intP 443,
          name := "library/nginx", tag := none, digest := none })
      = .ok { host := some "library", port := .intP 443, name := "nginx",
              tag := none, digest := none }
    ∧ (some "library" : Option String) ≠ (none : Option String) := by
  refine ⟨rfl, rfl, ?_, rfl, rfl, ?_⟩
  · intro h
    exact PortV.noConfusion h
  · intro h
    exact Option.noConfusion h

/-- C4 amended: the reference round trip does hold on valid explicit fields
when the port is the default 443 and either a (grammar-valid) host is
present, or the host is absent and the name is a single slash-free
component.  Construction from the explicit fields succeeds and parsing the
formatted composite returns exactly the constructed fields. -/
theorem image_roundtrip_amended :
    (∀ (H : ValidHost) (n : ValidName) (td : TagOrDigest),
      mkImageRef (some (String.mk H.render)) (some (Sum.inr 443)) (String.mk n.render)
          (refFrom (some H) n td).tag (refFrom (some H) n td).digest
        = .ok (refFrom (some H) n td)
      ∧ parseImageRef (ImageRef.image (refFrom (some H) n td))
        = .ok (refFrom (some H) n td))
    ∧ (∀ (nc : NameComp) (td : TagOrDigest),
      mkImageRef none (some (Sum.inr 443)) (String.mk (ValidName.mk nc []).render)
          (refFrom none (ValidName.mk nc []) td).tag
          (refFrom none (ValidName.mk nc []) td).digest
        = .ok (refFrom none (ValidName.mk nc []) td)
      ∧ parseImageRef (ImageRef.image (refFrom none (ValidName.mk nc []) td))
        = .ok (refFrom none (ValidName.mk nc []) td)) := by
  constructor
  · intro H n td
    constructor
    · cases td <;> rfl
    · unfold parseImageRef
      rw [format_data_hosted H n td,
        imageMatch_of_head _ _ _ (imageM_head_hosted H n td)]
      cases td <;> rfl
  · intro nc td
    constructor
    · cases td <;> rfl
    · unfold parseImageRef
      rw [format_data_hostfree (ValidName.mk nc []) td,
        imageMatch_of_head _ _ _ (imageM_head_noslash nc td)]
      cases td <;> rfl
